import Mathlib

/-!
Verification of the collabkit collaboration server (Python sources under
`src/python/collabkit/`) against its natural-language specification.

Modelling conventions, shared by every definition below:

* Python `float` timestamps are modelled as `ℚ` (the program only ever
  compares, adds and scales timestamps, never uses float-specific behaviour).
* Python `str` comparison (`>` on node ids / origins) compares code points;
  it is modelled by `pyStrLt` on the code-point lists of the strings.
* A Python `dict` is an insertion-ordered association list: lookup finds the
  first (unique) matching key, assignment updates a present key in place and
  appends an absent key at the end, and iteration follows list order.
* Scalar JSON values stored in CRDT leaves are modelled by `Val`; nested
  JSON objects (payloads of `set` operations) by `SVal`; the nested
  dictionary returned by `LWWMap.value()` by the mutual pair
  `NVal`/`NChildren`.
-/

/-- Python string comparison on code-point lists (`a < b`). -/
def pyStrLtAux : List Char → List Char → Bool
  | [], [] => false
  | [], _ :: _ => true
  | _ :: _, [] => false
  | a :: as, b :: bs =>
      if a.val < b.val then true
      else if b.val < a.val then false
      else pyStrLtAux as bs

/-- Python `a < b` on strings. -/
def pyStrLt (a b : String) : Bool := pyStrLtAux a.data b.data

/-- Python `a > b` on strings. -/
def pyStrGt (a b : String) : Bool := pyStrLt b a

/-- First-match association-list lookup: Python `d.get(k)` / `d[k]`. -/
def alistGet {κ β : Type} [DecidableEq κ] : List (κ × β) → κ → Option β
  | [], _ => none
  | (k, v) :: rest, key => if k = key then some v else alistGet rest key

/-- Python `d[k] = v`: update the first occurrence in place, else append. -/
def alistSet {κ β : Type} [DecidableEq κ] : List (κ × β) → κ → β → List (κ × β)
  | [], key, val => [(key, val)]
  | (k, v) :: rest, key, val =>
      if k = key then (k, val) :: rest else (k, v) :: alistSet rest key val

/-- Scalar (non-dict) JSON values stored at CRDT leaves. -/
inductive Val where
  | vnone
  | vbool (b : Bool)
  | vint (n : Int)
  | vstr (s : String)
  deriving DecidableEq, Repr

mutual

/-- Payload of a `set` operation: a scalar or a nested JSON object. -/
inductive SVal where
  | prim (v : Val)
  | dict (xs : SDict)
  deriving DecidableEq

/-- Ordered field list of a nested JSON object payload. -/
inductive SDict where
  | nil
  | cons (k : String) (v : SVal) (tl : SDict)
  deriving DecidableEq

end

/--
`Operation` from `crdt/base.py`: an immutable record
`(id, timestamp, node_id, path, op_type, value)`.  The payload type is a
parameter because each CRDT stores its own payload shape in the dynamically
typed `value` field.
-/
structure Operation (α : Type) where
  id : String
  timestamp : ℚ
  node_id : String
  path : List String
  op_type : String
  value : α
  deriving Repr

/--
The wire dictionary produced by `Operation.to_dict` and consumed by
`Operation.from_dict`: the same six fields, with the timestamp as sent.
-/
structure OpDict (α : Type) where
  id : String
  timestamp : ℚ
  node_id : String
  path : List String
  op_type : String
  value : α
  deriving Repr

/-- `Operation.to_dict` from `crdt/base.py`. -/
def Operation.to_dict {α : Type} (op : Operation α) : OpDict α :=
  ⟨op.id, op.timestamp, op.node_id, op.path, op.op_type, op.value⟩

/--
`Operation.from_dict(data, use_server_timestamp=True)` from `crdt/base.py`.
`now` is the value of `time.time()` at the moment of the call; when
`use_server_timestamp` is true the client-supplied `data["timestamp"]` is
discarded and `now` is stored instead.
-/
def Operation.from_dict {α : Type} (useServerTimestamp : Bool) (now : ℚ)
    (data : OpDict α) : Operation α :=
  ⟨data.id, if useServerTimestamp then now else data.timestamp,
    data.node_id, data.path, data.op_type, data.value⟩

/--
`CollabkitServer._handle_operation` decodes the inbound operation dictionary
with `Operation.from_dict(message.operation)`, i.e. with the default
`use_server_timestamp=True`, at server receive time `now`.
-/
def serverDecodeOperation {α : Type} (now : ℚ) (data : OpDict α) : Operation α :=
  Operation.from_dict true now data

/-- `(ts1, node1)` is newer than `(ts2, node2)`: `LWWMap._is_newer` from
`crdt/map.py` (also the body of `TimestampedValue.__gt__` in
`crdt/register.py`). -/
def LWWMap.is_newer (ts1 : ℚ) (node1 : String) (ts2 : ℚ) (node2 : String) : Bool :=
  if ts1 ≠ ts2 then decide (ts1 > ts2) else pyStrGt node1 node2

/-- The ordering rule as the specification words it: `(ts₁, origin₁) >
(ts₂, origin₂)` iff `ts₁ > ts₂`, else (on equal timestamps) `origin₁ >
origin₂` as strings — i.e. the lexicographic order on the pair. -/
def lexGtSpec (ts1 : ℚ) (node1 : String) (ts2 : ℚ) (node2 : String) : Prop :=
  ts1 > ts2 ∨ (ts1 = ts2 ∧ pyStrGt node1 node2 = true)

instance (ts1 : ℚ) (n1 : String) (ts2 : ℚ) (n2 : String) :
    Decidable (lexGtSpec ts1 n1 ts2 n2) := by
  unfold lexGtSpec; infer_instance

/-- C4: the server-side decode of an inbound client operation stores the
server receive time and discards the client-supplied timestamp field: the
decoded operation's timestamp equals `now`, and two operation dictionaries
differing only in their `timestamp` field decode identically. -/
theorem server_assigns_receive_time {α : Type} (data : OpDict α) (now clientTs : ℚ) :
    (serverDecodeOperation now data).timestamp = now ∧
    serverDecodeOperation now { data with timestamp := clientTs } =
      serverDecodeOperation now data := by
  constructor
  · rfl
  · rfl

mutual

/-- A node of the nested dictionary returned by `LWWMap.value()`:
either a scalar leaf or a nested object. -/
inductive NVal where
  | leaf (v : Val)
  | obj (children : NChildren)
  deriving DecidableEq

/-- Insertion-ordered children of an object node. -/
inductive NChildren where
  | nil
  | cons (k : String) (v : NVal) (tl : NChildren)
  deriving DecidableEq

end

/-- Dictionary lookup `current.get(key)` on an object node. -/
def NChildren.get : NChildren → String → Option NVal
  | .nil, _ => none
  | .cons k v tl, key => if k = key then some v else tl.get key

/-- Dictionary assignment `current[key] = x` on an object node. -/
def NChildren.set : NChildren → String → NVal → NChildren
  | .nil, key, x => .cons key x .nil
  | .cons k v tl, key, x =>
      if k = key then .cons k x tl else .cons k v (tl.set key x)

/-- The intermediate node used while walking `path[:-1]` in `LWWMap.value`:
an existing dict child is reused, a missing or non-dict child is replaced
by a fresh `{}`. -/
def NChildren.childFor (d : NChildren) (k : String) : NChildren :=
  match d.get k with
  | some (.obj c) => c
  | _ => .nil

/--
One iteration of the entry loop in `LWWMap.value` (`crdt/map.py`): walk
`path[:-1]`, replacing a missing or non-dict intermediate node by `{}`,
then assign the scalar at the last segment (`current[path[-1]] = value`),
overwriting whatever was there.  An empty path inserts nothing.
-/
def NChildren.insertPath : NChildren → List String → Val → NChildren
  | d, [], _ => d
  | d, [k], v => d.set k (.leaf v)
  | d, k :: rest, v => d.set k (.obj ((d.childFor k).insertPath rest v))

/-- Follow a path through the nested result dictionary. -/
def NChildren.lookupPath : NChildren → List String → Option NVal
  | _, [] => none
  | d, [k] => d.get k
  | d, k :: rest =>
      match d.get k with
      | some (.obj c) => c.lookupPath rest
      | _ => none

/-- `VersionVector.update` from `crdt/base.py`. -/
def VersionVector.update (vv : List (String × ℚ)) (node : String) (ts : ℚ) :
    List (String × ℚ) :=
  let current := (alistGet vv node).getD 0
  alistSet vv node (max current ts)

/--
`LWWMap` state from `crdt/map.py`: `_entries` maps a path to
`(value, timestamp, node_id)`, `_tombstones` maps a path to
`(timestamp, node_id)`; the base class carries the operation log and a
version vector.
-/
structure LWWMapState where
  node_id : String
  entries : List (List String × (Val × ℚ × String))
  tombstones : List (List String × (ℚ × String))
  operations : List (Operation SVal)
  version_vector : List (String × ℚ)

/-- A fresh `LWWMap(node_id)` (no initial value). -/
def LWWMap.init (node_id : String) : LWWMapState :=
  ⟨node_id, [], [], [], []⟩

/-- `CRDT._has_seen`: an operation with the same id is already in the log. -/
def hasSeenOp {α : Type} (log : List (Operation α)) (op : Operation α) : Bool :=
  log.any (fun existing => existing.id = op.id)

/-- The scalar branch of `LWWMap._apply_set` / the body of
`LWWMap._flatten_set` for one leaf: store iff absent or newer. -/
def LWWMap.set_entry_if_newer
    (es : List (List String × (Val × ℚ × String)))
    (path : List String) (v : Val) (ts : ℚ) (nid : String) :
    List (List String × (Val × ℚ × String)) :=
  match alistGet es path with
  | none => alistSet es path (v, ts, nid)
  | some (_, ts0, nid0) =>
      if LWWMap.is_newer ts nid ts0 nid0 then alistSet es path (v, ts, nid) else es

/-- `LWWMap._flatten_set`: flatten a nested dict payload into one scalar
entry per leaf path. -/
def LWWMap.flatten_set (path : List String) (d : SDict) (ts : ℚ) (nid : String)
    (es : List (List String × (Val × ℚ × String))) :
    List (List String × (Val × ℚ × String)) :=
  match d with
  | .nil => es
  | .cons k (.prim v) tl =>
      LWWMap.flatten_set path tl ts nid
        (LWWMap.set_entry_if_newer es (path ++ [k]) v ts nid)
  | .cons k (.dict xs) tl =>
      LWWMap.flatten_set path tl ts nid
        (LWWMap.flatten_set (path ++ [k]) xs ts nid es)
termination_by sizeOf d
decreasing_by all_goals (simp_wf; try omega)

/-- `LWWMap._apply_set`. -/
def LWWMap.apply_set (es : List (List String × (Val × ℚ × String)))
    (path : List String) (value : SVal) (ts : ℚ) (nid : String) :
    List (List String × (Val × ℚ × String)) :=
  match value with
  | .dict xs => LWWMap.flatten_set path xs ts nid es
  | .prim v => LWWMap.set_entry_if_newer es path v ts nid

/-- `LWWMap._apply_delete`: store the tombstone iff absent or newer. -/
def LWWMap.apply_delete (tombs : List (List String × (ℚ × String)))
    (path : List String) (ts : ℚ) (nid : String) :
    List (List String × (ℚ × String)) :=
  match alistGet tombs path with
  | none => alistSet tombs path (ts, nid)
  | some (ts0, nid0) =>
      if LWWMap.is_newer ts nid ts0 nid0 then alistSet tombs path (ts, nid) else tombs

/-- `LWWMap.apply`: duplicate ids are ignored (returning `false`), `set`
and `delete` dispatch to the helpers above and are recorded in the log,
any other kind raises `ValueError`. -/
def LWWMap.apply (m : LWWMapState) (op : Operation SVal) :
    Except String (LWWMapState × Bool) :=
  if hasSeenOp m.operations op then .ok (m, false)
  else if op.op_type = "set" then
    .ok ({ m with
            entries := LWWMap.apply_set m.entries op.path op.value op.timestamp op.node_id,
            operations := m.operations ++ [op],
            version_vector := VersionVector.update m.version_vector op.node_id op.timestamp },
          true)
  else if op.op_type = "delete" then
    .ok ({ m with
            tombstones := LWWMap.apply_delete m.tombstones op.path op.timestamp op.node_id,
            operations := m.operations ++ [op],
            version_vector := VersionVector.update m.version_vector op.node_id op.timestamp },
          true)
  else .error "ValueError"

/-- Apply a list of operations in order; `none` if any application raises. -/
def LWWMap.apply_all (m : LWWMapState) : List (Operation SVal) → Option LWWMapState
  | [] => some m
  | op :: rest =>
      match LWWMap.apply m op with
      | .ok (m2, _) => LWWMap.apply_all m2 rest
      | .error _ => none

/-- The tombstone test inlined in the entry loop of `LWWMap.value`:
`tombstone = self._tombstones.get(path); if tombstone and tombstone[0] > ts`. -/
def LWWMap.value_step (tombs : List (List String × (ℚ × String)))
    (acc : NChildren) (e : List String × (Val × ℚ × String)) : NChildren :=
  match alistGet tombs e.1 with
  | some (tts, _) => if tts > e.2.2.1 then acc else acc.insertPath e.1 e.2.1
  | none => acc.insertPath e.1 e.2.1

/-- `LWWMap.value`: materialize the live entries into a nested dictionary. -/
def LWWMap.value (m : LWWMapState) : NChildren :=
  m.entries.foldl (LWWMap.value_step m.tombstones) .nil

/-- `CRDT.operations_since`: all logged operations with timestamp strictly
greater than the given one. -/
def operationsSince {α : Type} (log : List (Operation α)) (ts : ℚ) :
    List (Operation α) :=
  log.filter (fun op => decide (op.timestamp > ts))

/-- `TimestampedValue` from `crdt/register.py`. -/
structure TimestampedValue where
  value : SVal
  timestamp : ℚ
  node_id : String

/-- `TimestampedValue.__gt__`: compare by timestamp, then node id. -/
def TimestampedValue.gt (a b : TimestampedValue) : Bool :=
  if a.timestamp ≠ b.timestamp then decide (a.timestamp > b.timestamp)
  else pyStrGt a.node_id b.node_id

/-- `LWWRegister` state from `crdt/register.py`. -/
structure LWWRegisterState where
  node_id : String
  current : TimestampedValue
  operations : List (Operation SVal)
  version_vector : List (String × ℚ)

/-- A fresh `LWWRegister(node_id, initial_value)`; the stored seed has
timestamp `0.0` and the register's own node id. -/
def LWWRegister.init (node_id : String) (initial : SVal) : LWWRegisterState :=
  ⟨node_id, ⟨initial, 0, node_id⟩, [], []⟩

/-- `LWWRegister.apply`: duplicates return `false`; non-`set` kinds raise
`ValueError`; otherwise the current value is replaced iff the incoming
`TimestampedValue` is greater, and the operation is recorded. -/
def LWWRegister.apply (r : LWWRegisterState) (op : Operation SVal) :
    Except String (LWWRegisterState × Bool) :=
  if hasSeenOp r.operations op then .ok (r, false)
  else if op.op_type ≠ "set" then .error "ValueError"
  else
    let newValue : TimestampedValue := ⟨op.value, op.timestamp, op.node_id⟩
    .ok ({ r with
            current := if newValue.gt r.current then newValue else r.current,
            operations := r.operations ++ [op],
            version_vector :=
              VersionVector.update r.version_vector op.node_id op.timestamp },
          true)

theorem alistGet_alistSet_self {κ β : Type} [DecidableEq κ]
    (xs : List (κ × β)) (k : κ) (v : β) :
    alistGet (alistSet xs k v) k = some v := by
  induction xs with
  | nil => simp [alistSet, alistGet]
  | cons hd tl ih =>
      obtain ⟨k0, v0⟩ := hd
      by_cases h : k0 = k <;> simp [alistSet, alistGet, h, ih]

theorem alistGet_alistSet_ne {κ β : Type} [DecidableEq κ]
    (xs : List (κ × β)) (k k2 : κ) (v : β) (h : k ≠ k2) :
    alistGet (alistSet xs k v) k2 = alistGet xs k2 := by
  induction xs with
  | nil => simp [alistSet, alistGet, h]
  | cons hd tl ih =>
      obtain ⟨k0, v0⟩ := hd
      by_cases h0 : k0 = k
      · subst h0
        simp [alistSet, alistGet, h]
      · simp [alistSet, alistGet, h0, ih]

theorem is_newer_iff_lexGtSpec (ts1 : ℚ) (n1 : String) (ts2 : ℚ) (n2 : String) :
    LWWMap.is_newer ts1 n1 ts2 n2 = true ↔ lexGtSpec ts1 n1 ts2 n2 := by
  unfold LWWMap.is_newer lexGtSpec
  by_cases h : ts1 = ts2
  · subst h; simp
  · have hlt : ¬ (ts1 = ts2 ∧ pyStrGt n1 n2 = true) := fun hc => h hc.1
    simp [h, hlt]

theorem tv_gt_iff_lexGtSpec (a b : TimestampedValue) :
    a.gt b = true ↔ lexGtSpec a.timestamp a.node_id b.timestamp b.node_id := by
  unfold TimestampedValue.gt lexGtSpec
  by_cases h : a.timestamp = b.timestamp
  · simp [h]
  · have hlt : ¬ (a.timestamp = b.timestamp ∧ pyStrGt a.node_id b.node_id = true) :=
      fun hc => h hc.1
    simp [h, hlt]

/-- C5: both LWW stores replace on `set` exactly when the incoming
`(timestamp, origin)` pair is lexicographically greater (timestamps first,
origin string comparison breaking ties), and keep the old triple otherwise:
(1) a fresh `set` operation applied to an `LWWRegister` leaves
`current` equal to the incoming triple iff the incoming pair is
lexicographically greater, and unchanged otherwise; (2) `LWWMap._apply_set`
with a scalar behaves identically on the entry stored at the target path. -/
theorem lww_set_replaces_iff_lexicographically_greater :
    (∀ (r : LWWRegisterState) (op : Operation SVal),
        hasSeenOp r.operations op = false → op.op_type = "set" →
        ∃ r2 : LWWRegisterState,
          LWWRegister.apply r op = .ok (r2, true) ∧
          r2.current =
            if lexGtSpec op.timestamp op.node_id
                r.current.timestamp r.current.node_id
            then ⟨op.value, op.timestamp, op.node_id⟩
            else r.current) ∧
    (∀ (es : List (List String × (Val × ℚ × String)))
        (path : List String) (v : Val) (ts : ℚ) (nid : String),
        alistGet (LWWMap.apply_set es path (.prim v) ts nid) path =
          some (match alistGet es path with
                | none => (v, ts, nid)
                | some e => if lexGtSpec ts nid e.2.1 e.2.2 then (v, ts, nid) else e)) := by
  constructor
  · intro r op hseen htype
    refine ⟨{ r with
              current :=
                if TimestampedValue.gt ⟨op.value, op.timestamp, op.node_id⟩ r.current
                then ⟨op.value, op.timestamp, op.node_id⟩ else r.current,
              operations := r.operations ++ [op],
              version_vector :=
                VersionVector.update r.version_vector op.node_id op.timestamp },
            ?_, ?_⟩
    · simp [LWWRegister.apply, hseen, htype]
    · by_cases hg : lexGtSpec op.timestamp op.node_id r.current.timestamp r.current.node_id
      · have hb : TimestampedValue.gt ⟨op.value, op.timestamp, op.node_id⟩ r.current = true := by
          rw [tv_gt_iff_lexGtSpec]; exact hg
        simp [hb, hg]
      · have hb : TimestampedValue.gt ⟨op.value, op.timestamp, op.node_id⟩ r.current = false := by
          rw [← Bool.not_eq_true, tv_gt_iff_lexGtSpec]; exact hg
        simp [hb, hg]
  · intro es path v ts nid
    unfold LWWMap.apply_set LWWMap.set_entry_if_newer
    cases hget : alistGet es path with
    | none => simp [alistGet_alistSet_self]
    | some e =>
        obtain ⟨v0, ts0, nid0⟩ := e
        by_cases hg : lexGtSpec ts nid ts0 nid0
        · have : LWWMap.is_newer ts nid ts0 nid0 = true := by
            rw [is_newer_iff_lexGtSpec]; exact hg
          simp [this, hg, alistGet_alistSet_self]
        · have : LWWMap.is_newer ts nid ts0 nid0 = false := by
            rw [← Bool.not_eq_true, is_newer_iff_lexGtSpec]; exact hg
          simp [this, hg, hget]

/-- Concrete register and fresh `set` operation for the C5 witness. -/
def lwwWitnessRegister : LWWRegisterState :=
  ⟨"n", ⟨.prim (.vint 7), 3, "m"⟩, [], []⟩

/-- The incoming operation of the C5 witness: same timestamp, larger origin. -/
def lwwWitnessOp : Operation SVal := ⟨"w1", 3, "z", [], "set", .prim (.vint 9)⟩

/-- Witness for C5 at a concrete register and operation. -/
theorem lww_set_replaces_iff_lexicographically_greater_witness :
    hasSeenOp lwwWitnessRegister.operations lwwWitnessOp = false ∧
    lwwWitnessOp.op_type = "set" ∧
    ∃ r2 : LWWRegisterState,
      LWWRegister.apply lwwWitnessRegister lwwWitnessOp = .ok (r2, true) ∧
      r2.current =
        if lexGtSpec lwwWitnessOp.timestamp lwwWitnessOp.node_id
            lwwWitnessRegister.current.timestamp lwwWitnessRegister.current.node_id
        then ⟨lwwWitnessOp.value, lwwWitnessOp.timestamp, lwwWitnessOp.node_id⟩
        else lwwWitnessRegister.current :=
  ⟨rfl, rfl,
    lww_set_replaces_iff_lexicographically_greater.1 lwwWitnessRegister lwwWitnessOp rfl rfl⟩

/-- C2 failing input, first operation: `set(["a","b"], 1)` at time 1. -/
def nestedThenScalarOp1 : Operation SVal := ⟨"i1", 1, "n", ["a", "b"], "set", .prim (.vint 1)⟩

/-- C2 failing input, second operation: `set(["a"], 2)` at time 2. -/
def nestedThenScalarOp2 : Operation SVal := ⟨"i2", 2, "n", ["a"], "set", .prim (.vint 2)⟩

/-- The `LWWMap` state reached by applying the two C2 operations in order:
the nested leaf is stored before the scalar at its prefix path. -/
def nestedThenScalarState : LWWMapState :=
  ⟨"n", [(["a", "b"], (.vint 1, 1, "n")), (["a"], (.vint 2, 2, "n"))], [],
    [nestedThenScalarOp1, nestedThenScalarOp2], [("n", 2)]⟩

/-- C2: evaluating the code at the failing input.  Applying
`set(["a","b"], 1)` then `set(["a"], 2)` to a fresh map is accepted, both
entries stay live, the live path `["a"]` is a proper prefix of the live path
`["a","b"]` — yet `value()` returns `{"a": 2}`: the later-stored scalar
overwrites the nested child map during materialization, contrary to the
child-wins invariant stated by the code's own comment and by the spec. -/
theorem scalar_at_prefix_appears_in_value :
    LWWMap.apply_all (LWWMap.init "n") [nestedThenScalarOp1, nestedThenScalarOp2] =
      some nestedThenScalarState ∧
    (["a"] : List String) <+: ["a", "b"] ∧
    alistGet nestedThenScalarState.entries ["a", "b"] = some (.vint 1, 1, "n") ∧
    alistGet nestedThenScalarState.entries ["a"] = some (.vint 2, 2, "n") ∧
    nestedThenScalarState.tombstones = [] ∧
    LWWMap.value nestedThenScalarState = .cons "a" (.leaf (.vint 2)) .nil :=
  ⟨rfl, by decide, rfl, rfl, rfl, rfl⟩

/--
The hiding condition exactly as claim C1 words it: some tombstone whose path
equals or is a prefix of the entry's path carries a pair `(ts, origin)`
greater than or equal to the entry's `(ts, origin)` in the lexicographic
order (timestamp first, origin string comparison breaking ties).
-/
def claimTombstoneHides (tombs : List (List String × (ℚ × String)))
    (path : List String) (ts : ℚ) (origin : String) : Prop :=
  ∃ t ∈ tombs, t.1 <+: path ∧
    (t.2.1 > ts ∨ (t.2.1 = ts ∧ pyStrLt t.2.2 origin = false))

/-- C1 counterexample input, first operation: `set(["a","b"], 1)` at time 1. -/
def prefixTombstoneSetOp : Operation SVal := ⟨"j1", 1, "n", ["a", "b"], "set", .prim (.vint 1)⟩

/-- C1 counterexample input, second operation: `delete(["a"])` at time 5. -/
def prefixTombstoneDelOp : Operation SVal := ⟨"j2", 5, "n", ["a"], "delete", .prim .vnone⟩

/-- The `LWWMap` state reached by applying the two C1 operations in order. -/
def prefixTombstoneState : LWWMapState :=
  ⟨"n", [(["a", "b"], (.vint 1, 1, "n"))], [(["a"], (5, "n"))],
    [prefixTombstoneSetOp, prefixTombstoneDelOp], [("n", 5)]⟩

/-- C1 counterexample: in the reachable state holding the entry
`["a","b"] ↦ (1, ts 1)` and the tombstone `["a"] ↦ (ts 5)`, the claim's
hiding condition holds (the tombstone's path is a prefix of the entry's path
and its timestamp 5 ≥ 1), yet `value()` still shows the leaf: the code only
consults a tombstone at exactly the entry's path, so the claimed "hidden iff"
equivalence is false at this input. -/
theorem tombstone_prefix_claim_counterexample :
    LWWMap.apply_all (LWWMap.init "n") [prefixTombstoneSetOp, prefixTombstoneDelOp] =
      some prefixTombstoneState ∧
    claimTombstoneHides prefixTombstoneState.tombstones ["a", "b"] 1 "n" ∧
    NChildren.lookupPath (LWWMap.value prefixTombstoneState) ["a", "b"] =
      some (.leaf (.vint 1)) :=
  ⟨rfl, ⟨(["a"], (5, "n")), by decide, by decide, Or.inl (by norm_num)⟩, rfl⟩

/-- One stored `_entries` item: a path with its `(value, timestamp, origin)`. -/
abbrev MapEntry := List String × (Val × ℚ × String)


theorem NChildren.get_set_self :
    ∀ (d : NChildren) (k : String) (x : NVal), (d.set k x).get k = some x
  | .nil, k, x => by simp [NChildren.set, NChildren.get]
  | .cons k0 v0 tl, k, x => by
      by_cases h : k0 = k
      · subst h; simp [NChildren.set, NChildren.get]
      · simp [NChildren.set, NChildren.get, h, NChildren.get_set_self tl k x]

theorem NChildren.get_set_ne :
    ∀ (d : NChildren) (k k2 : String) (x : NVal), k ≠ k2 →
      (d.set k x).get k2 = d.get k2
  | .nil, k, k2, x, h => by simp [NChildren.set, NChildren.get, h]
  | .cons k0 v0 tl, k, k2, x, h => by
      by_cases h0 : k0 = k
      · subst h0; simp [NChildren.set, NChildren.get, h]
      · simp [NChildren.set, NChildren.get, h0, NChildren.get_set_ne tl k k2 x h]

theorem NChildren.lookupPath_nil (p : List String) :
    NChildren.nil.lookupPath p = none := by
  match p with
  | [] => rfl
  | [k] => rfl
  | k :: k2 :: rest => rfl

/-- Looking up the path just inserted finds its leaf. -/
theorem NChildren.lookupPath_insertPath_self :
    ∀ (p : List String) (d : NChildren) (v : Val), p ≠ [] →
      (d.insertPath p v).lookupPath p = some (.leaf v)
  | [], _, _, h => absurd rfl h
  | [k], d, v, _ => by
      simp [NChildren.insertPath, NChildren.lookupPath, NChildren.get_set_self]
  | k :: k2 :: rest, d, v, _ => by
      have ih := NChildren.lookupPath_insertPath_self (k2 :: rest)
        (d.childFor k) v (by simp)
      simp [NChildren.insertPath, NChildren.lookupPath, NChildren.get_set_self, ih]

/-- Inserting along a path into an empty node cannot make an unrelated
path visible. -/
theorem NChildren.lookupPath_insertPath_nil_unrelated :
    ∀ (q p : List String) (u : Val), ¬ p <+: q → ¬ q <+: p →
      (NChildren.nil.insertPath q u).lookupPath p = none
  | [], p, u, _, hqp => absurd (List.nil_prefix) hqp
  | [b], [], u, hpq, _ => absurd (List.nil_prefix) hpq
  | [b], [a], u, hpq, hqp => by
      have hab : a ≠ b := by
        intro h; subst h; exact hpq (List.prefix_refl _)
      simp [NChildren.insertPath, NChildren.set, NChildren.lookupPath,
        NChildren.get, hab, Ne.symm hab]
  | [b], a :: a2 :: rest, u, hpq, hqp => by
      by_cases hab : a = b
      · subst hab
        exact absurd ⟨a2 :: rest, rfl⟩ hqp
      · simp [NChildren.insertPath, NChildren.set, NChildren.lookupPath,
          NChildren.get, hab, Ne.symm hab]
  | b :: b2 :: qrest, [], u, hpq, _ => absurd (List.nil_prefix) hpq
  | b :: b2 :: qrest, [a], u, hpq, hqp => by
      by_cases hab : a = b
      · subst hab
        exact absurd ⟨b2 :: qrest, rfl⟩ hpq
      · simp [NChildren.insertPath, NChildren.set, NChildren.lookupPath,
          NChildren.get, hab, Ne.symm hab]
  | b :: b2 :: qrest, a :: a2 :: prest, u, hpq, hqp => by
      by_cases hab : a = b
      · subst hab
        have hpq2 : ¬ (a2 :: prest) <+: (b2 :: qrest) := by
          intro h; exact hpq (List.prefix_cons_inj a |>.mpr h)
        have hqp2 : ¬ (b2 :: qrest) <+: (a2 :: prest) := by
          intro h; exact hqp (List.prefix_cons_inj a |>.mpr h)
        have ih := NChildren.lookupPath_insertPath_nil_unrelated
          (b2 :: qrest) (a2 :: prest) u hpq2 hqp2
        simp [NChildren.insertPath, NChildren.set, NChildren.lookupPath,
          NChildren.get, NChildren.childFor, ih]
      · simp [NChildren.insertPath, NChildren.set, NChildren.lookupPath,
          NChildren.get, hab, Ne.symm hab]

/-- Inserting along `q` does not change the lookup of a path that is not
prefix-related to `q`. -/
theorem NChildren.lookupPath_insertPath_unrelated :
    ∀ (q p : List String) (d : NChildren) (u : Val), ¬ p <+: q → ¬ q <+: p →
      (d.insertPath q u).lookupPath p = d.lookupPath p
  | [], p, d, u, _, _ => rfl
  | [b], [], d, u, hpq, _ => absurd (List.nil_prefix) hpq
  | [b], [a], d, u, hpq, hqp => by
      have hab : a ≠ b := by
        intro h; subst h; exact hpq (List.prefix_refl _)
      simp [NChildren.insertPath, NChildren.lookupPath,
        NChildren.get_set_ne _ _ _ _ (Ne.symm hab)]
  | [b], a :: a2 :: rest, d, u, hpq, hqp => by
      by_cases hab : a = b
      · subst hab
        exact absurd ⟨a2 :: rest, rfl⟩ hqp
      · simp [NChildren.insertPath, NChildren.lookupPath,
          NChildren.get_set_ne _ _ _ _ (Ne.symm hab)]
  | b :: b2 :: qrest, [], d, u, hpq, _ => absurd (List.nil_prefix) hpq
  | b :: b2 :: qrest, [a], d, u, hpq, hqp => by
      by_cases hab : a = b
      · subst hab
        exact absurd ⟨b2 :: qrest, rfl⟩ hpq
      · simp [NChildren.insertPath, NChildren.lookupPath,
          NChildren.get_set_ne _ _ _ _ (Ne.symm hab)]
  | b :: b2 :: qrest, a :: a2 :: prest, d, u, hpq, hqp => by
      by_cases hab : a = b
      · subst hab
        have hpq2 : ¬ (a2 :: prest) <+: (b2 :: qrest) := by
          intro h; exact hpq (List.prefix_cons_inj a |>.mpr h)
        have hqp2 : ¬ (b2 :: qrest) <+: (a2 :: prest) := by
          intro h; exact hqp (List.prefix_cons_inj a |>.mpr h)
        cases hgb : d.get a with
        | none =>
            have ih := NChildren.lookupPath_insertPath_nil_unrelated
              (b2 :: qrest) (a2 :: prest) u hpq2 hqp2
            simp [NChildren.insertPath, NChildren.lookupPath,
              NChildren.get_set_self, NChildren.childFor, hgb, ih]
        | some x =>
            cases x with
            | leaf w =>
                have ih := NChildren.lookupPath_insertPath_nil_unrelated
                  (b2 :: qrest) (a2 :: prest) u hpq2 hqp2
                simp [NChildren.insertPath, NChildren.lookupPath,
                  NChildren.get_set_self, NChildren.childFor, hgb, ih]
            | obj c =>
                have ih := NChildren.lookupPath_insertPath_unrelated
                  (b2 :: qrest) (a2 :: prest) c u hpq2 hqp2
                simp [NChildren.insertPath, NChildren.lookupPath,
                  NChildren.get_set_self, NChildren.childFor, hgb, ih]
      · simp [NChildren.insertPath, NChildren.lookupPath,
          NChildren.get_set_ne _ _ _ _ (Ne.symm hab)]

/-- A leaf visible after an insert was either the inserted leaf or was
already visible before. -/
theorem NChildren.lookupPath_insertPath_leaf_inv :
    ∀ (q p : List String) (d : NChildren) (u w : Val),
      (d.insertPath q u).lookupPath p = some (.leaf w) →
      (p = q ∧ w = u) ∨ d.lookupPath p = some (.leaf w)
  | [], p, d, u, w, h => Or.inr h
  | [b], [], d, u, w, h => by simp [NChildren.lookupPath] at h
  | [b], [a], d, u, w, h => by
      by_cases hab : a = b
      · subst hab
        left
        simp [NChildren.insertPath, NChildren.lookupPath,
          NChildren.get_set_self] at h
        exact ⟨rfl, h.symm⟩
      · right
        simpa [NChildren.insertPath, NChildren.lookupPath,
          NChildren.get_set_ne _ _ _ _ (Ne.symm hab)] using h
  | [b], a :: a2 :: rest, d, u, w, h => by
      by_cases hab : a = b
      · subst hab
        simp [NChildren.insertPath, NChildren.lookupPath,
          NChildren.get_set_self] at h
      · right
        simpa [NChildren.insertPath, NChildren.lookupPath,
          NChildren.get_set_ne _ _ _ _ (Ne.symm hab)] using h
  | b :: b2 :: qrest, [], d, u, w, h => by simp [NChildren.lookupPath] at h
  | b :: b2 :: qrest, [a], d, u, w, h => by
      by_cases hab : a = b
      · subst hab
        simp [NChildren.insertPath, NChildren.lookupPath,
          NChildren.get_set_self] at h
      · right
        simpa [NChildren.insertPath, NChildren.lookupPath,
          NChildren.get_set_ne _ _ _ _ (Ne.symm hab)] using h
  | b :: b2 :: qrest, a :: a2 :: prest, d, u, w, h => by
      by_cases hab : a = b
      · subst hab
        have h2 : ((d.childFor a).insertPath (b2 :: qrest) u).lookupPath
            (a2 :: prest) = some (.leaf w) := by
          simpa [NChildren.insertPath, NChildren.lookupPath,
            NChildren.get_set_self] using h
        rcases NChildren.lookupPath_insertPath_leaf_inv
            (b2 :: qrest) (a2 :: prest) (d.childFor a) u w h2 with
          ⟨heq, hw⟩ | hold
        · exact Or.inl ⟨by rw [heq], hw⟩
        · cases hgb : d.get a with
          | none =>
              rw [NChildren.childFor, hgb] at hold
              rw [NChildren.lookupPath_nil] at hold
              exact absurd hold (by simp)
          | some x =>
              cases x with
              | leaf z =>
                  rw [NChildren.childFor, hgb] at hold
                  rw [NChildren.lookupPath_nil] at hold
                  exact absurd hold (by simp)
              | obj c =>
                  right
                  rw [NChildren.childFor, hgb] at hold
                  simp [NChildren.lookupPath, hgb, hold]
      · right
        simpa [NChildren.insertPath, NChildren.lookupPath,
          NChildren.get_set_ne _ _ _ _ (Ne.symm hab)] using h

/-- The tombstone test of the entry loop in `LWWMap.value`, as a Boolean:
the tombstone stored at exactly this path (if any) has a strictly greater
timestamp.  The tombstone's origin plays no role. -/
def LWWMap.tomb_hides (tombs : List (List String × (ℚ × String)))
    (path : List String) (ts : ℚ) : Bool :=
  match alistGet tombs path with
  | some t => decide (t.1 > ts)
  | none => false

/-- The entries of the map that survive the tombstone test in `value()`. -/
def LWWMap.live_entries (m : LWWMapState) : List MapEntry :=
  m.entries.filter (fun e => ! LWWMap.tomb_hides m.tombstones e.1 e.2.2.1)

/-- Insert every entry of the list into the accumulator, in order. -/
def insertAllE (d : NChildren) (l : List MapEntry) : NChildren :=
  l.foldl (fun acc e => acc.insertPath e.1 e.2.1) d

theorem value_step_eq_if (tombs : List (List String × (ℚ × String)))
    (acc : NChildren) (e : MapEntry) :
    LWWMap.value_step tombs acc e =
      if LWWMap.tomb_hides tombs e.1 e.2.2.1 then acc
      else acc.insertPath e.1 e.2.1 := by
  unfold LWWMap.value_step LWWMap.tomb_hides
  cases alistGet tombs e.1 with
  | none => simp
  | some t =>
      by_cases h : t.1 > e.2.2.1 <;> simp [h]

theorem foldl_value_step_eq (tombs : List (List String × (ℚ × String))) :
    ∀ (l : List MapEntry) (acc : NChildren),
      l.foldl (LWWMap.value_step tombs) acc =
        insertAllE acc (l.filter (fun e => ! LWWMap.tomb_hides tombs e.1 e.2.2.1)) := by
  intro l
  induction l with
  | nil => intro acc; rfl
  | cons e t ih =>
      intro acc
      rw [List.foldl_cons, value_step_eq_if, List.filter_cons]
      by_cases h : LWWMap.tomb_hides tombs e.1 e.2.2.1
      · simp [h, ih]
      · simp only [h]
        simp only [Bool.not_eq_true] at h
        simp [h, ih, insertAllE]

theorem LWWMap.value_eq_insertAll_live (m : LWWMapState) :
    LWWMap.value m = insertAllE .nil (LWWMap.live_entries m) := by
  unfold LWWMap.value LWWMap.live_entries
  exact foldl_value_step_eq m.tombstones m.entries .nil

theorem insertAllE_lookup_unrelated :
    ∀ (l : List MapEntry) (d : NChildren) (p : List String),
      (∀ e ∈ l, ¬ p <+: e.1 ∧ ¬ e.1 <+: p) →
      (insertAllE d l).lookupPath p = d.lookupPath p := by
  intro l
  induction l with
  | nil => intro d p _; rfl
  | cons e t ih =>
      intro d p h
      have he := h e (by simp)
      have ht : ∀ x ∈ t, ¬ p <+: x.1 ∧ ¬ x.1 <+: p := fun x hx => h x (by simp [hx])
      show (insertAllE (d.insertPath e.1 e.2.1) t).lookupPath p = d.lookupPath p
      rw [ih _ p ht,
        NChildren.lookupPath_insertPath_unrelated e.1 p d e.2.1 he.1 he.2]

theorem insertAllE_lookup_mem :
    ∀ (l : List MapEntry) (d : NChildren) (e : MapEntry),
      e ∈ l → (∀ x ∈ l, x.1 ≠ []) →
      l.Pairwise (fun a b => ¬ a.1 <+: b.1 ∧ ¬ b.1 <+: a.1) →
      (insertAllE d l).lookupPath e.1 = some (.leaf e.2.1) := by
  intro l
  induction l with
  | nil => intro d e he _ _; simp at he
  | cons x t ih =>
      intro d e he hne hpw
      rcases List.mem_cons.mp he with heq | ht
      · subst heq
        have hrel : ∀ b ∈ t, ¬ e.1 <+: b.1 ∧ ¬ b.1 <+: e.1 :=
          (List.pairwise_cons.mp hpw).1
        show (insertAllE (d.insertPath e.1 e.2.1) t).lookupPath e.1 = some (.leaf e.2.1)
        rw [insertAllE_lookup_unrelated t _ e.1 hrel,
          NChildren.lookupPath_insertPath_self e.1 d e.2.1 (hne e (by simp))]
      · exact ih _ e ht (fun x hx => hne x (by simp [hx]))
          (List.pairwise_cons.mp hpw).2

theorem insertAllE_lookup_leaf_inv :
    ∀ (l : List MapEntry) (d : NChildren) (p : List String) (w : Val),
      (insertAllE d l).lookupPath p = some (.leaf w) →
      (∃ e ∈ l, e.1 = p ∧ e.2.1 = w) ∨ d.lookupPath p = some (.leaf w) := by
  intro l
  induction l with
  | nil => intro d p w h; exact Or.inr h
  | cons x t ih =>
      intro d p w h
      rcases ih _ p w h with ⟨e, he, hp, hw⟩ | hbase
      · exact Or.inl ⟨e, by simp [he], hp, hw⟩
      · rcases NChildren.lookupPath_insertPath_leaf_inv x.1 p d x.2.1 w hbase with
          ⟨hp, hw⟩ | hold
        · exact Or.inl ⟨x, by simp, hp.symm, hw.symm⟩
        · exact Or.inr hold

theorem alistGet_mem {κ β : Type} [DecidableEq κ] :
    ∀ (xs : List (κ × β)) (k : κ) (b : β), alistGet xs k = some b → (k, b) ∈ xs := by
  intro xs
  induction xs with
  | nil => intro k b h; simp [alistGet] at h
  | cons hd tl ih =>
      intro k b h
      obtain ⟨k0, v0⟩ := hd
      by_cases h0 : k0 = k
      · subst h0
        simp [alistGet] at h
        simp [h]
      · simp [alistGet, h0] at h
        exact List.mem_cons_of_mem _ (ih k b h)

theorem alistGet_of_mem_nodup {κ β : Type} [DecidableEq κ] :
    ∀ (xs : List (κ × β)) (k : κ) (b : β),
      (xs.map Prod.fst).Nodup → (k, b) ∈ xs → alistGet xs k = some b := by
  intro xs
  induction xs with
  | nil => intro k b _ h; simp at h
  | cons hd tl ih =>
      intro k b hnd hmem
      obtain ⟨k0, v0⟩ := hd
      rcases List.mem_cons.mp hmem with heq | ht
      · cases heq
        simp [alistGet]
      · have hk : k0 ≠ k := by
          intro h; subst h
          have : k0 ∈ tl.map Prod.fst := List.mem_map.mpr ⟨(k0, b), ht, rfl⟩
          exact (List.nodup_cons.mp (by simpa using hnd)).1 this
        simp [alistGet, hk]
        exact ih k b (List.nodup_cons.mp (by simpa using hnd)).2 ht

/-- The hiding condition the code actually implements, as a proposition:
the tombstone stored at exactly the entry's path has a strictly greater
timestamp. -/
def codeTombstoneHides (tombs : List (List String × (ℚ × String)))
    (path : List String) (ts : ℚ) : Prop :=
  ∃ t, alistGet tombs path = some t ∧ t.1 > ts

instance (tombs : List (List String × (ℚ × String))) (path : List String) (ts : ℚ) :
    Decidable (codeTombstoneHides tombs path ts) := by
  unfold codeTombstoneHides
  cases alistGet tombs path with
  | none => exact .isFalse (by simp)
  | some t => by_cases h : t.1 > ts
              · exact .isTrue ⟨t, rfl, h⟩
              · exact .isFalse (by simp [h])

theorem tomb_hides_iff (tombs : List (List String × (ℚ × String)))
    (path : List String) (ts : ℚ) :
    LWWMap.tomb_hides tombs path ts = true ↔ codeTombstoneHides tombs path ts := by
  unfold LWWMap.tomb_hides codeTombstoneHides
  cases alistGet tombs path with
  | none => simp
  | some t => simp

/-- C1 (amended): in `value()`, a stored entry is materialized as a visible
leaf iff no tombstone at *exactly* the entry's path has a *strictly greater*
timestamp; tombstones at proper prefix paths never hide an entry, and on
equal timestamps the tombstone's origin never breaks the tie (the entry
stays visible).  The equivalence is stated for maps whose stored paths are
distinct and whose live paths are nonempty and pairwise prefix-free, since
path-prefix conflicts between live entries can independently remove leaves
from the materialized dictionary. -/
theorem lww_value_visible_iff_no_newer_exact_tombstone
    (m : LWWMapState)
    (hkeys : (m.entries.map Prod.fst).Nodup)
    (hne : ∀ e ∈ LWWMap.live_entries m, e.1 ≠ [])
    (hpf : (LWWMap.live_entries m).Pairwise
      (fun a b => ¬ a.1 <+: b.1 ∧ ¬ b.1 <+: a.1))
    (p : List String) (v : Val) (ts : ℚ) (o : String)
    (hget : alistGet m.entries p = some (v, ts, o)) :
    (LWWMap.value m).lookupPath p = some (.leaf v) ↔
      ¬ codeTombstoneHides m.tombstones p ts := by
  rw [LWWMap.value_eq_insertAll_live]
  constructor
  · intro hvis
    rcases insertAllE_lookup_leaf_inv (LWWMap.live_entries m) .nil p v hvis with
      ⟨e, helive, hp, hv⟩ | hnil
    · have hemem : e ∈ m.entries := (List.mem_filter.mp helive).1
      have hepass := (List.mem_filter.mp helive).2
      have hgete : alistGet m.entries e.1 = some e.2 := by
        obtain ⟨e1, e2⟩ := e
        exact alistGet_of_mem_nodup m.entries e1 e2 hkeys hemem
      rw [hp] at hgete
      rw [hget] at hgete
      have he2 : e.2 = (v, ts, o) := by
        injection hgete with h
        exact h.symm
      intro hhid
      rw [← tomb_hides_iff] at hhid
      rw [hp, he2] at hepass
      simp at hepass
      rw [hepass] at hhid
      exact Bool.false_ne_true hhid
    · rw [NChildren.lookupPath_nil] at hnil
      exact absurd hnil (by simp)
  · intro hnothid
    have hentry : (p, (v, ts, o)) ∈ m.entries := alistGet_mem m.entries p _ hget
    have hlive : (p, (v, ts, o)) ∈ LWWMap.live_entries m := by
      refine List.mem_filter.mpr ⟨hentry, ?_⟩
      simp only [Bool.not_eq_true']
      rw [← Bool.not_eq_true, tomb_hides_iff]
      exact hnothid
    exact insertAllE_lookup_mem (LWWMap.live_entries m) .nil (p, (v, ts, o))
      hlive hne hpf

/-- Concrete map for the C1 witness: one entry at `["a"]` with timestamp 1
and origin `"x"`, and a tombstone at the same path with the same timestamp
and the larger origin `"z"`. -/
def tieTombstoneMap : LWWMapState :=
  ⟨"s", [(["a"], (.vint 1, 1, "x"))], [(["a"], (1, "z"))], [], []⟩

/-- Witness for amended C1 at a concrete map: on a timestamp tie the
tombstone's larger origin does not hide the entry — the leaf stays visible. -/
theorem lww_value_visible_iff_no_newer_exact_tombstone_witness :
    ((tieTombstoneMap.entries.map Prod.fst).Nodup ∧
      (∀ e ∈ LWWMap.live_entries tieTombstoneMap, e.1 ≠ []) ∧
      (LWWMap.live_entries tieTombstoneMap).Pairwise
        (fun a b => ¬ a.1 <+: b.1 ∧ ¬ b.1 <+: a.1) ∧
      alistGet tieTombstoneMap.entries ["a"] = some (.vint 1, 1, "x")) ∧
    ((LWWMap.value tieTombstoneMap).lookupPath ["a"] = some (.leaf (.vint 1)) ↔
      ¬ codeTombstoneHides tieTombstoneMap.tombstones ["a"] 1) :=
  ⟨⟨by decide, by decide, by decide, rfl⟩,
    lww_value_visible_iff_no_newer_exact_tombstone tieTombstoneMap
      (by decide) (by decide) (by decide) ["a"] (.vint 1) 1 "x" rfl⟩

/-- `".".join(path)` on path segments, over code points. -/
def joinDotAux : List String → List Char
  | [] => []
  | [s] => s.data
  | s :: rest => s.data ++ '.' :: joinDotAux rest

/-- `".".join(path)`. -/
def joinDot (parts : List String) : String := String.mk (joinDotAux parts)

/-- `path_str.split(".")`, over code points. -/
def splitDotAux : List Char → List Char → List String
  | [], acc => [String.mk acc.reverse]
  | c :: rest, acc =>
      if c = '.' then String.mk acc.reverse :: splitDotAux rest []
      else splitDotAux rest (c :: acc)

/-- `path_str.split(".")`. -/
def splitDot (s : String) : List String := splitDotAux s.data []

/-- `tuple(path_str.split(".")) if path_str else ()` in `LWWMap.from_state`. -/
def pathOfWire (s : String) : List String := if s = "" then [] else splitDot s

/-- The dictionary produced by `LWWMap.state()`: entries and tombstones
keyed by the dot-joined path, plus the serialized operation log. -/
structure LWWMapWireState where
  entries : List (String × (Val × ℚ × String))
  tombstones : List (String × (ℚ × String))
  operations : List (OpDict SVal)

/-- `LWWMap.state` from `crdt/map.py`. -/
def LWWMap.state (m : LWWMapState) : LWWMapWireState :=
  ⟨m.entries.map (fun e => (joinDot e.1, e.2)),
    m.tombstones.map (fun t => (joinDot t.1, t.2)),
    m.operations.map Operation.to_dict⟩

/-- `LWWMap.from_state` from `crdt/map.py`: a fresh map is filled from the
wire dictionaries, and the operation log is rebuilt with
`Operation.from_dict(op)` — i.e. with the default
`use_server_timestamp=True`; `now` is the value of `time.time()` during the
reconstruction. -/
def LWWMap.from_state (node_id : String) (w : LWWMapWireState) (now : ℚ) :
    LWWMapState :=
  ⟨node_id,
    w.entries.foldl (fun es e => alistSet es (pathOfWire e.1) e.2) [],
    w.tombstones.foldl (fun ts t => alistSet ts (pathOfWire t.1) t.2) [],
    w.operations.map (Operation.from_dict true now),
    []⟩

/-- The single operation of the C3 failing input: `set(["a"], 5)` authored
by node `"n"` at time 1. -/
def roundTripOp : Operation SVal := ⟨"i1", 1, "n", ["a"], "set", .prim (.vint 5)⟩

/-- The map reached by applying the C3 operation to a fresh map. -/
def roundTripSrc : LWWMapState :=
  ⟨"n", [(["a"], (.vint 5, 1, "n"))], [], [roundTripOp], [("n", 1)]⟩

/-- C3: evaluating the code at the failing input.  The map `roundTripSrc`
is reachable and logs one operation with timestamp 1; reconstructing it
with `from_state` at time 100 yields a log whose only operation carries
timestamp 100, so `operations_since(50)` returns that operation on the
reconstruction but nothing on the original: the state round trip does not
preserve the operation log's timestamps. -/
theorem from_state_rewrites_op_timestamps :
    LWWMap.apply_all (LWWMap.init "n") [roundTripOp] = some roundTripSrc ∧
    (roundTripSrc.operations.map (fun op => op.timestamp)) = [1] ∧
    ((LWWMap.from_state "n" (LWWMap.state roundTripSrc) 100).operations.map
      (fun op => op.timestamp)) = [100] ∧
    ((operationsSince
        (LWWMap.from_state "n" (LWWMap.state roundTripSrc) 100).operations 50).map
      (fun op => op.id)) = ["i1"] ∧
    operationsSince roundTripSrc.operations 50 = [] :=
  ⟨rfl, rfl, rfl, rfl, rfl⟩

/--
Typed payload of an `ORSet` operation (`crdt/set.py`): an `add` carries the
element, a `remove` carries `{"element": value, "tags": observed-tags}`.
-/
inductive ORPayload where
  | addV (v : Val)
  | removeV (element : Val) (tags : List String)
  deriving DecidableEq, Repr

/--
`ORSet` state from `crdt/set.py`: `_elements` maps a hashed value to its
set of `(tag, value)` pairs, `_removed_tags` is the set of removed tags.
`_hash_value` (a deterministic sha256 of the JSON serialization) is
modelled as injective keying by the value itself; the pair sets and the
tag set are modelled as deduplicating insertion-ordered lists.
-/
structure ORSetState where
  node_id : String
  elements : List (Val × List (String × Val))
  removed_tags : List String
  operations : List (Operation ORPayload)
  version_vector : List (String × ℚ)

/-- A fresh `ORSet(node_id)`. -/
def ORSet.init (node_id : String) : ORSetState := ⟨node_id, [], [], [], []⟩

/-- Python `set.add` on a modelled set: append unless already present. -/
def setAdd {β : Type} [DecidableEq β] (xs : List β) (x : β) : List β :=
  if x ∈ xs then xs else xs ++ [x]

/-- `ORSet._apply_add`: record `(tag, value)` with `tag = op.id` under the
value's bucket, creating the bucket if needed. -/
def ORSet.apply_add (elements : List (Val × List (String × Val)))
    (tag : String) (v : Val) : List (Val × List (String × Val)) :=
  let bucket := (alistGet elements v).getD []
  alistSet elements v (setAdd bucket (tag, v))

/-- `ORSet._apply_remove`: add every carried tag to `_removed_tags`. -/
def ORSet.apply_remove (removed : List String) (tags : List String) : List String :=
  tags.foldl setAdd removed

/-- `ORSet.apply`: duplicates are ignored; `add`/`remove` dispatch to the
helpers and are recorded; an unknown kind raises `ValueError`, and a
payload of the wrong shape fails like the Python attribute access would. -/
def ORSet.apply (s : ORSetState) (op : Operation ORPayload) :
    Except String (ORSetState × Bool) :=
  if hasSeenOp s.operations op then .ok (s, false)
  else if op.op_type = "add" then
    match op.value with
    | .addV v =>
        .ok ({ s with
                elements := ORSet.apply_add s.elements op.id v,
                operations := s.operations ++ [op],
                version_vector :=
                  VersionVector.update s.version_vector op.node_id op.timestamp },
              true)
    | .removeV _ _ => .error "TypeError"
  else if op.op_type = "remove" then
    match op.value with
    | .removeV _ tags =>
        .ok ({ s with
                removed_tags := ORSet.apply_remove s.removed_tags tags,
                operations := s.operations ++ [op],
                version_vector :=
                  VersionVector.update s.version_vector op.node_id op.timestamp },
              true)
    | .addV _ => .error "TypeError"
  else .error "ValueError"

/-- Apply a list of operations in order; `none` if any application raises. -/
def ORSet.apply_all (s : ORSetState) : List (Operation ORPayload) → Option ORSetState
  | [] => some s
  | op :: rest =>
      match ORSet.apply s op with
      | .ok (s2, _) => ORSet.apply_all s2 rest
      | .error _ => none

/-- The inner loop of `ORSet.value` over one bucket: the first pair whose
tag is not removed contributes its value, then the loop breaks. -/
def ORSet.bucket_first_live (bucket : List (String × Val)) (removed : List String) :
    Option Val :=
  match bucket with
  | [] => none
  | (tag, val) :: rest =>
      if tag ∈ removed then ORSet.bucket_first_live rest removed else some val

/-- `ORSet.value`: one surviving value per bucket, collected as a set. -/
def ORSet.value (s : ORSetState) : List Val :=
  s.elements.foldl
    (fun acc e =>
      match ORSet.bucket_first_live e.2 s.removed_tags with
      | some v => setAdd acc v
      | none => acc)
    []

/-- `ORSet.remove`'s observed-tag collection (`crdt/set.py` lines 70-76):
all live tags currently stored for the value. -/
def ORSet.observed_tags (s : ORSetState) (v : Val) : List String :=
  match alistGet s.elements v with
  | some bucket => (bucket.filter (fun p => p.1 ∉ s.removed_tags)).map Prod.fst
  | none => []

/-- Every pair stored in a bucket carries the bucket's own value. -/
def ORSet.bucketInv (s : ORSetState) : Prop :=
  ∀ k b, alistGet s.elements k = some b → ∀ p ∈ b, p.2 = k

/-- A tagged pair `(t, v)` is stored in the bucket of `v`. -/
def ORSet.present (s : ORSetState) (t : String) (v : Val) : Prop :=
  ∃ b, alistGet s.elements v = some b ∧ (t, v) ∈ b

theorem setAdd_subset {β : Type} [DecidableEq β] (xs : List β) (x y : β) :
    y ∈ setAdd xs x → y ∈ xs ∨ y = x := by
  unfold setAdd
  by_cases h : x ∈ xs
  · simp only [h, if_true]
    exact Or.inl
  · simp only [h, if_false]
    intro hy
    rcases List.mem_append.mp hy with h1 | h2
    · exact Or.inl h1
    · exact Or.inr (by simpa using h2)

theorem mem_setAdd_self {β : Type} [DecidableEq β] (xs : List β) (x : β) :
    x ∈ setAdd xs x := by
  unfold setAdd
  by_cases h : x ∈ xs <;> simp [h]

theorem mem_setAdd_of_mem {β : Type} [DecidableEq β] (xs : List β) (x y : β)
    (h : y ∈ xs) : y ∈ setAdd xs x := by
  unfold setAdd
  by_cases hx : x ∈ xs <;> simp [hx, h]

theorem apply_remove_mem (base tags : List String) (x : String) :
    x ∈ ORSet.apply_remove base tags → x ∈ base ∨ x ∈ tags := by
  unfold ORSet.apply_remove
  induction tags generalizing base with
  | nil => intro h; exact Or.inl h
  | cons t ts ih =>
      intro h
      rcases ih (setAdd base t) h with hb | ht
      · rcases setAdd_subset base t x hb with h1 | h2
        · exact Or.inl h1
        · exact Or.inr (by simp [h2])
      · exact Or.inr (by simp [ht])

/-- Case analysis on a successful `ORSet.apply`. -/
theorem ORSet.apply_cases (s : ORSetState) (op : Operation ORPayload)
    (s2 : ORSetState) (applied : Bool)
    (h : ORSet.apply s op = .ok (s2, applied)) :
    (s2 = s ∧ applied = false ∧ hasSeenOp s.operations op = true) ∨
    (∃ v, op.op_type = "add" ∧ op.value = .addV v ∧
      s2.elements = ORSet.apply_add s.elements op.id v ∧
      s2.removed_tags = s.removed_tags ∧
      s2.operations = s.operations ++ [op]) ∨
    (∃ el tags, op.op_type = "remove" ∧ op.value = .removeV el tags ∧
      s2.elements = s.elements ∧
      s2.removed_tags = ORSet.apply_remove s.removed_tags tags ∧
      s2.operations = s.operations ++ [op]) := by
  unfold ORSet.apply at h
  by_cases h1 : hasSeenOp s.operations op = true
  · simp [h1] at h
    exact Or.inl ⟨h.1.symm, h.2, h1⟩
  · rw [Bool.not_eq_true] at h1
    simp [h1] at h
    by_cases h2 : op.op_type = "add"
    · simp [h2] at h
      cases hv : op.value with
      | addV v =>
          rw [hv] at h
          simp at h
          exact Or.inr (Or.inl ⟨v, h2, rfl, by rw [← h.1], by rw [← h.1], by rw [← h.1]⟩)
      | removeV el tags =>
          rw [hv] at h
          simp at h
    · simp [h2] at h
      by_cases h3 : op.op_type = "remove"
      · simp [h3] at h
        cases hv : op.value with
        | addV v =>
            rw [hv] at h
            simp at h
        | removeV el tags =>
            rw [hv] at h
            simp at h
            exact Or.inr (Or.inr ⟨el, tags, h3, rfl,
              by rw [← h.1], by rw [← h.1], by rw [← h.1]⟩)
      · simp [h3] at h

theorem ORSet.present_apply_add (elements : List (Val × List (String × Val)))
    (tag : String) (v w : Val) (t : String)
    (h : ∃ b, alistGet elements w = some b ∧ (t, w) ∈ b) :
    ∃ b, alistGet (ORSet.apply_add elements tag v) w = some b ∧ (t, w) ∈ b := by
  obtain ⟨b, hget, hmem⟩ := h
  unfold ORSet.apply_add
  by_cases hvw : v = w
  · subst hvw
    refine ⟨setAdd ((alistGet elements v).getD []) (tag, v), ?_, ?_⟩
    · exact alistGet_alistSet_self ..
    · rw [hget]
      exact mem_setAdd_of_mem _ _ _ hmem
  · exact ⟨b, by rw [alistGet_alistSet_ne _ _ _ _ hvw]; exact hget, hmem⟩

theorem ORSet.present_apply_add_self (elements : List (Val × List (String × Val)))
    (tag : String) (v : Val) :
    ∃ b, alistGet (ORSet.apply_add elements tag v) v = some b ∧ (tag, v) ∈ b := by
  unfold ORSet.apply_add
  exact ⟨setAdd ((alistGet elements v).getD []) (tag, v),
    alistGet_alistSet_self .., mem_setAdd_self _ _⟩

/-- The core add-wins induction: walking an operation list with pairwise
fresh ids, a tag never carried by any remove payload stays out of
`_removed_tags`, and once its pair is stored (or its add is still pending
in the list) it is stored at the end. -/
theorem orset_addwins_aux :
    ∀ (ops : List (Operation ORPayload)) (s s' : ORSetState),
      ORSet.apply_all s ops = some s' →
      (((s.operations ++ ops).map (fun o => o.id)).Nodup) →
      ∀ (t : String) (v : Val),
        t ∉ s.removed_tags →
        (∀ r ∈ ops, ∀ el tags, r.value = .removeV el tags → t ∉ tags) →
        (ORSet.present s t v ∨
          ∃ a ∈ ops, a.op_type = "add" ∧ a.value = .addV v ∧ a.id = t) →
        ORSet.present s' t v ∧ t ∉ s'.removed_tags := by
  intro ops
  induction ops with
  | nil =>
      intro s s' happ _ t v hrem _ hdisj
      have hs : s = s' := by
        simpa [ORSet.apply_all] using happ
      subst hs
      rcases hdisj with hpres | ⟨a, ha, _⟩
      · exact ⟨hpres, hrem⟩
      · simp at ha
  | cons op rest ih =>
      intro s s' happ hnodup t v hrem hconc hdisj
      rw [ORSet.apply_all] at happ
      cases happly : ORSet.apply s op with
      | error e => rw [happly] at happ; simp at happ
      | ok p =>
          obtain ⟨s2, applied⟩ := p
          rw [happly] at happ
          simp at happ
          have hfresh : op.id ∉ s.operations.map (fun o => o.id) := by
            have := hnodup
            rw [List.map_append] at this
            rcases List.nodup_append.mp this with ⟨_, _, hdisj2⟩
            intro hin
            exact hdisj2 hin (by simp)
          have hnotseen : hasSeenOp s.operations op = false := by
            rw [hasSeenOp, List.any_eq_false]
            intro x hx
            simp only [decide_eq_true_eq]
            intro heq
            exact hfresh (List.mem_map.mpr ⟨x, hx, heq⟩)
          rcases ORSet.apply_cases s op s2 applied happly with
            ⟨_, _, hseen⟩ | ⟨v0, htype0, hval0, helts, hrems, hops⟩ |
            ⟨el, tags, htype0, hval0, helts, hrems, hops⟩
          · rw [hseen] at hnotseen; exact absurd hnotseen (by simp)
          · -- add case
            have hnodup2 : ((s2.operations ++ rest).map (fun o => o.id)).Nodup := by
              rw [hops, List.append_assoc, List.singleton_append]
              exact hnodup
            have hrem2 : t ∉ s2.removed_tags := by rw [hrems]; exact hrem
            have hconc2 : ∀ r ∈ rest, ∀ el2 tags2, r.value = .removeV el2 tags2 → t ∉ tags2 :=
              fun r hr => hconc r (by simp [hr])
            refine ih s2 s' happ hnodup2 t v hrem2 hconc2 ?_
            rcases hdisj with hpres | ⟨a, ha, hatype, haval, haid⟩
            · left
              rw [ORSet.present] at hpres ⊢
              rw [helts]
              exact ORSet.present_apply_add s.elements op.id v0 v t hpres
            · rcases List.mem_cons.mp ha with haop | harest
              · left
                subst haop
                rw [haval] at hval0
                have hv : v0 = v := by injection hval0 with h; exact h.symm
                subst hv
                rw [ORSet.present, helts, ← haid]
                exact ORSet.present_apply_add_self s.elements a.id v0
              · right
                exact ⟨a, harest, hatype, haval, haid⟩
          · -- remove case
            have hnodup2 : ((s2.operations ++ rest).map (fun o => o.id)).Nodup := by
              rw [hops, List.append_assoc, List.singleton_append]
              exact hnodup
            have hrem2 : t ∉ s2.removed_tags := by
              rw [hrems]
              intro hmem
              rcases apply_remove_mem s.removed_tags tags t hmem with hbase | htags
              · exact hrem hbase
              · exact hconc op (by simp) el tags hval0 htags
            have hconc2 : ∀ r ∈ rest, ∀ el2 tags2, r.value = .removeV el2 tags2 → t ∉ tags2 :=
              fun r hr => hconc r (by simp [hr])
            refine ih s2 s' happ hnodup2 t v hrem2 hconc2 ?_
            rcases hdisj with hpres | ⟨a, ha, hatype, haval, haid⟩
            · left
              rw [ORSet.present] at hpres ⊢
              rw [helts]
              exact hpres
            · rcases List.mem_cons.mp ha with haop | harest
              · subst haop
                rw [haval] at hval0
                exact absurd hval0 (by simp)
              · right
                exact ⟨a, harest, hatype, haval, haid⟩

theorem ORSet.bucketInv_apply (s : ORSetState) (op : Operation ORPayload)
    (s2 : ORSetState) (applied : Bool)
    (h : ORSet.apply s op = .ok (s2, applied)) (hinv : ORSet.bucketInv s) :
    ORSet.bucketInv s2 := by
  rcases ORSet.apply_cases s op s2 applied h with
    ⟨heq, _, _⟩ | ⟨v0, _, _, helts, _, _⟩ | ⟨_, _, _, _, helts, _, _⟩
  · rw [heq]; exact hinv
  · intro k b hget p hp
    rw [helts] at hget
    unfold ORSet.apply_add at hget
    by_cases hk : v0 = k
    · subst hk
      rw [alistGet_alistSet_self] at hget
      injection hget with hb
      rw [← hb] at hp
      rcases setAdd_subset _ _ _ hp with hold | hnew
      · cases hbucket : alistGet s.elements v0 with
        | none => rw [hbucket] at hold; simp at hold
        | some b0 =>
            rw [hbucket] at hold
            exact hinv v0 b0 hbucket p (by simpa using hold)
      · rw [hnew]
    · rw [alistGet_alistSet_ne _ _ _ _ hk] at hget
      exact hinv k b hget p hp
  · intro k b hget p hp
    rw [helts] at hget
    exact hinv k b hget p hp

theorem ORSet.bucketInv_apply_all :
    ∀ (ops : List (Operation ORPayload)) (s s' : ORSetState),
      ORSet.apply_all s ops = some s' → ORSet.bucketInv s → ORSet.bucketInv s' := by
  intro ops
  induction ops with
  | nil =>
      intro s s' happ hinv
      have hs : s = s' := by simpa [ORSet.apply_all] using happ
      rw [← hs]; exact hinv
  | cons op rest ih =>
      intro s s' happ hinv
      rw [ORSet.apply_all] at happ
      cases happly : ORSet.apply s op with
      | error e => rw [happly] at happ; simp at happ
      | ok p =>
          obtain ⟨s2, applied⟩ := p
          rw [happly] at happ
          simp at happ
          exact ih s2 s' happ (ORSet.bucketInv_apply s op s2 applied happly hinv)

theorem ORSet.bucket_first_live_of_live (removed : List String) :
    ∀ (b : List (String × Val)) (k : Val),
      (∀ p ∈ b, p.2 = k) → (∃ p ∈ b, p.1 ∉ removed) →
      ORSet.bucket_first_live b removed = some k := by
  intro b
  induction b with
  | nil =>
      intro k _ hlive
      simp at hlive
  | cons hd tl ih =>
      intro k hall hlive
      obtain ⟨tag, val⟩ := hd
      by_cases htag : tag ∈ removed
      · have hlive2 : ∃ p ∈ tl, p.1 ∉ removed := by
          rcases hlive with ⟨p, hp, hlp⟩
          rcases List.mem_cons.mp hp with heq | htl
          · exfalso; rw [heq] at hlp; exact hlp htag
          · exact ⟨p, htl, hlp⟩
        rw [ORSet.bucket_first_live]
        simp only [htag, if_true]
        exact ih k (fun p hp => hall p (by simp [hp])) hlive2
      · rw [ORSet.bucket_first_live]
        simp only [htag, if_false]
        have := hall (tag, val) (by simp)
        simp at this
        rw [this]

theorem ORSet.mem_value_foldl (s : ORSetState) :
    ∀ (l : List (Val × List (String × Val))) (acc : List Val) (v : Val),
      ((∃ e ∈ l, ORSet.bucket_first_live e.2 s.removed_tags = some v) ∨ v ∈ acc) →
      v ∈ l.foldl
        (fun acc e =>
          match ORSet.bucket_first_live e.2 s.removed_tags with
          | some w => setAdd acc w
          | none => acc)
        acc := by
  intro l
  induction l with
  | nil =>
      intro acc v h
      rcases h with ⟨e, he, _⟩ | hacc
      · simp at he
      · simpa using hacc
  | cons hd tl ih =>
      intro acc v h
      rw [List.foldl_cons]
      rcases h with ⟨e, he, hlive⟩ | hacc
      · rcases List.mem_cons.mp he with heq | htl
        · subst heq
          refine ih _ v (Or.inr ?_)
          rw [hlive]
          exact mem_setAdd_self acc v
        · exact ih _ v (Or.inl ⟨e, htl, hlive⟩)
      · refine ih _ v (Or.inr ?_)
        cases ORSet.bucket_first_live hd.2 s.removed_tags with
        | none => exact hacc
        | some w => exact mem_setAdd_of_mem _ _ _ hacc

/-- C6: starting from a fresh `ORSet` and applying any operation list with
pairwise distinct ids, if the list contains an `add` of `v` whose tag (the
add's operation id) appears in no applied remove operation's carried tag
set, then `v` is an element of `value()` — regardless of where the removes
sit relative to the add. -/
theorem orset_concurrent_add_wins
    (n : String) (ops : List (Operation ORPayload)) (s' : ORSetState)
    (addOp : Operation ORPayload) (v : Val)
    (happ : ORSet.apply_all (ORSet.init n) ops = some s')
    (hnodup : (ops.map (fun o => o.id)).Nodup)
    (hmem : addOp ∈ ops) (htype : addOp.op_type = "add")
    (hval : addOp.value = .addV v)
    (hconc : ∀ r ∈ ops, ∀ el tags, r.value = .removeV el tags → addOp.id ∉ tags) :
    v ∈ ORSet.value s' := by
  have hmain := orset_addwins_aux ops (ORSet.init n) s' happ
    (by simpa [ORSet.init] using hnodup) addOp.id v
    (by simp [ORSet.init]) hconc
    (Or.inr ⟨addOp, hmem, htype, hval, rfl⟩)
  obtain ⟨⟨b, hget, hbmem⟩, hlive⟩ := hmain
  have hinv : ORSet.bucketInv s' :=
    ORSet.bucketInv_apply_all ops (ORSet.init n) s' happ
      (by intro k b h; simp [ORSet.init, alistGet] at h)
  have hall : ∀ p ∈ b, p.2 = v := hinv v b hget
  have hfirst : ORSet.bucket_first_live b s'.removed_tags = some v :=
    ORSet.bucket_first_live_of_live s'.removed_tags b v hall
      ⟨(addOp.id, v), hbmem, hlive⟩
  have hentry : (v, b) ∈ s'.elements := alistGet_mem s'.elements v b hget
  unfold ORSet.value
  exact ORSet.mem_value_foldl s' s'.elements [] v (Or.inl ⟨(v, b), hentry, hfirst⟩)

/-- C6 witness, remove operation: a remove of `7` that observed no tags
(authored before any add was seen). -/
def orsetRemoveOp : Operation ORPayload := ⟨"r1", 1, "m", [], "remove", .removeV (.vint 7) []⟩

/-- C6 witness, add operation: an add of `7` with fresh tag `"a1"`. -/
def orsetAddOp : Operation ORPayload := ⟨"a1", 2, "n", [], "add", .addV (.vint 7)⟩

/-- The state after applying the remove and then the add to a fresh set. -/
def orsetFinal : ORSetState :=
  ⟨"p", [(.vint 7, [("a1", .vint 7)])], [], [orsetRemoveOp, orsetAddOp],
    [("m", 1), ("n", 2)]⟩

/-- Witness for C6: the remove applied before the add (the adverse order)
still leaves `7` in `value()`. -/
theorem orset_concurrent_add_wins_witness :
    ORSet.apply_all (ORSet.init "p") [orsetRemoveOp, orsetAddOp] = some orsetFinal ∧
    ([orsetRemoveOp, orsetAddOp].map (fun o => o.id)).Nodup ∧
    orsetAddOp ∈ [orsetRemoveOp, orsetAddOp] ∧
    orsetAddOp.op_type = "add" ∧ orsetAddOp.value = .addV (.vint 7) ∧
    Val.vint 7 ∈ ORSet.value orsetFinal := by
  refine ⟨rfl, by decide, List.Mem.tail _ (List.Mem.head _), rfl, rfl, ?_⟩
  refine orset_concurrent_add_wins "p" [orsetRemoveOp, orsetAddOp] orsetFinal
    orsetAddOp (.vint 7) rfl (by decide)
    (List.Mem.tail _ (List.Mem.head _)) rfl rfl ?_
  intro r hr el tags hv
  rcases List.mem_cons.mp hr with h1 | h2
  · subst h1
    have h3 : ORPayload.removeV (.vint 7) [] = ORPayload.removeV el tags := hv
    injection h3 with he ht
    rw [← ht]
    simp
  · have h3 : r = orsetAddOp := by simpa using h2
    subst h3
    exact absurd hv (by simp [orsetAddOp])

/-- Python `del d[k]`. -/
def alistRemove {κ β : Type} [DecidableEq κ] (xs : List (κ × β)) (k : κ) :
    List (κ × β) :=
  xs.filter (fun p => decide (p.1 ≠ k))

theorem alistGet_alistRemove_self {κ β : Type} [DecidableEq κ]
    (xs : List (κ × β)) (k : κ) : alistGet (alistRemove xs k) k = none := by
  induction xs with
  | nil => rfl
  | cons hd tl ih =>
      obtain ⟨k0, v0⟩ := hd
      by_cases h : k0 = k
      · subst h; simpa [alistRemove, alistGet] using ih
      · simpa [alistRemove, alistGet, h] using ih

/--
`AuthRateLimiter` state from `server.py`: per-channel failed-attempt
counts (`defaultdict(int)`, modelled by lookups defaulting to 0) and
per-channel lockout deadlines.
-/
structure AuthRateLimiterState where
  max_attempts : ℕ
  lockout_seconds : ℚ
  attempts : List (ℕ × ℕ)
  lockout_until : List (ℕ × ℚ)

/-- A fresh `AuthRateLimiter(max_attempts, lockout_seconds)`. -/
def AuthRateLimiter.init (maxAttempts : ℕ) (lockoutSeconds : ℚ) :
    AuthRateLimiterState :=
  ⟨maxAttempts, lockoutSeconds, [], []⟩

/-- `AuthRateLimiter.is_allowed`: inside an unexpired lockout the attempt is
refused; an expired lockout is dropped and the counter reset; otherwise the
attempt is allowed while the counter is below `max_attempts`. -/
def AuthRateLimiter.is_allowed (l : AuthRateLimiterState) (ws : ℕ) (now : ℚ) :
    AuthRateLimiterState × Bool :=
  match alistGet l.lockout_until ws with
  | some deadline =>
      if now < deadline then (l, false)
      else
        let l2 := { l with
                     lockout_until := alistRemove l.lockout_until ws,
                     attempts := alistSet l.attempts ws 0 }
        (l2, decide ((alistGet l2.attempts ws).getD 0 < l.max_attempts))
  | none => (l, decide ((alistGet l.attempts ws).getD 0 < l.max_attempts))

/-- `AuthRateLimiter.record_failure`: bump the counter; reaching
`max_attempts` sets the lockout deadline `now + lockout_seconds`. -/
def AuthRateLimiter.record_failure (l : AuthRateLimiterState) (ws : ℕ) (now : ℚ) :
    AuthRateLimiterState :=
  let a := (alistGet l.attempts ws).getD 0 + 1
  let l2 := { l with attempts := alistSet l.attempts ws a }
  if a ≥ l.max_attempts then
    { l2 with lockout_until := alistSet l2.lockout_until ws (now + l.lockout_seconds) }
  else l2

/-- `AuthRateLimiter.record_success`: drop both the counter and any lockout. -/
def AuthRateLimiter.record_success (l : AuthRateLimiterState) (ws : ℕ) :
    AuthRateLimiterState :=
  { l with
     attempts := alistRemove l.attempts ws,
     lockout_until := alistRemove l.lockout_until ws }

/-- Outcome of `CollabkitServer._handle_auth` (auth provider configured). -/
inductive AuthOutcome where
  | rateLimited
  | authenticated
  | tooManyConnections
  | authFailed
  deriving DecidableEq, Repr

/--
`CollabkitServer._handle_auth` with an auth provider configured:
the limiter gate runs first (replying `RATE_LIMITED` without calling the
provider when refused), then the provider validates the token
(`tokenValid` is its verdict, `connLimitReached` the connection-cap check);
success records success before the connection-cap check, failure records a
failure.  The returned `Bool` is whether `validate_token` was invoked.
-/
def CollabkitServer.handle_auth (l : AuthRateLimiterState) (ws : ℕ) (now : ℚ)
    (tokenValid connLimitReached : Bool) :
    AuthRateLimiterState × AuthOutcome × Bool :=
  let gate := AuthRateLimiter.is_allowed l ws now
  if !gate.2 then (gate.1, .rateLimited, false)
  else if tokenValid then
    let l2 := AuthRateLimiter.record_success gate.1 ws
    if connLimitReached then (l2, .tooManyConnections, true)
    else (l2, .authenticated, true)
  else (AuthRateLimiter.record_failure gate.1 ws now, .authFailed, true)

/-- A run of auth attempts with invalid tokens at the given times. -/
def authFailRun (ws : ℕ) (times : List ℚ) (l : AuthRateLimiterState) :
    AuthRateLimiterState :=
  times.foldl (fun acc t => (CollabkitServer.handle_auth acc ws t false false).1) l

/-- C8: with the default limiter (5 attempts, 300-second lockout):
(1) five failed validations, at any times, leave the channel locked out
until `t5 + 300` (the fifth failure's time plus 300 seconds);
(2) while a lockout deadline is in the future, every auth attempt returns
`RATE_LIMITED`, the provider is not invoked and the limiter state does not
change; (3) a successful validation clears the channel's failure counter. -/
theorem auth_lockout_after_max_failures :
    (∀ (ws : ℕ) (t1 t2 t3 t4 t5 : ℚ),
      alistGet (authFailRun ws [t1, t2, t3, t4, t5]
        (AuthRateLimiter.init 5 300)).lockout_until ws = some (t5 + 300)) ∧
    (∀ (l : AuthRateLimiterState) (ws : ℕ) (now deadline : ℚ)
        (tokenValid connLimitReached : Bool),
      alistGet l.lockout_until ws = some deadline → now < deadline →
      CollabkitServer.handle_auth l ws now tokenValid connLimitReached =
        (l, .rateLimited, false)) ∧
    (∀ (l : AuthRateLimiterState) (ws : ℕ) (now : ℚ) (connLimitReached : Bool),
      (AuthRateLimiter.is_allowed l ws now).2 = true →
      alistGet (CollabkitServer.handle_auth l ws now true connLimitReached).1.attempts
        ws = none) := by
  refine ⟨?_, ?_, ?_⟩
  · intro ws t1 t2 t3 t4 t5
    simp [authFailRun, CollabkitServer.handle_auth, AuthRateLimiter.is_allowed,
      AuthRateLimiter.record_failure, AuthRateLimiter.init, alistGet, alistSet,
      alistRemove]
  · intro l ws now deadline tokenValid connLimitReached hget hnow
    unfold CollabkitServer.handle_auth AuthRateLimiter.is_allowed
    rw [hget]
    simp [hnow]
  · intro l ws now connLimitReached hallow
    by_cases hconn : connLimitReached = true <;>
      simp [CollabkitServer.handle_auth, hallow, hconn,
        AuthRateLimiter.record_success, alistGet_alistRemove_self]

/-- Witness for C8 at channel 7: five failures at times 1..5 lock the
channel until 305; an attempt at time 10, before 305, is refused without
invoking the provider; a fresh successful validation clears the counter. -/
theorem auth_lockout_after_max_failures_witness :
    alistGet (authFailRun 7 [1, 2, 3, 4, 5]
      (AuthRateLimiter.init 5 300)).lockout_until 7 = some (5 + 300) ∧
    (alistGet (authFailRun 7 [1, 2, 3, 4, 5]
        (AuthRateLimiter.init 5 300)).lockout_until 7 = some (5 + 300) ∧
      (10 : ℚ) < 5 + 300 ∧
      CollabkitServer.handle_auth
        (authFailRun 7 [1, 2, 3, 4, 5] (AuthRateLimiter.init 5 300)) 7 10 true false =
        (authFailRun 7 [1, 2, 3, 4, 5] (AuthRateLimiter.init 5 300),
          .rateLimited, false)) ∧
    ((AuthRateLimiter.is_allowed (AuthRateLimiter.init 5 300) 7 0).2 = true ∧
      alistGet (CollabkitServer.handle_auth
        (AuthRateLimiter.init 5 300) 7 0 true false).1.attempts 7 = none) := by
  have h1 := auth_lockout_after_max_failures.1 7 1 2 3 4 5
  have hlt : (10 : ℚ) < 5 + 300 := by norm_num
  have h2 := auth_lockout_after_max_failures.2.1
    (authFailRun 7 [1, 2, 3, 4, 5] (AuthRateLimiter.init 5 300)) 7 10 (5 + 300)
    true false h1 hlt
  have hallow : (AuthRateLimiter.is_allowed (AuthRateLimiter.init 5 300) 7 0).2 = true := by
    simp [AuthRateLimiter.is_allowed, AuthRateLimiter.init, alistGet]
  have h3 := auth_lockout_after_max_failures.2.2
    (AuthRateLimiter.init 5 300) 7 0 false hallow
  exact ⟨h1, ⟨h1, hlt, h2⟩, ⟨hallow, h3⟩⟩

/--
`RateLimiter.is_allowed` from `server.py`, for one channel (the per-channel
dictionaries are independent): the state is `(tokens, last_update)`, a fresh
channel starting with `rate` tokens.  Refill `elapsed * (rate / window)`
tokens capped at `rate`, then consume one token if at least one is left.
-/
def RateLimiter.is_allowed (rate window : ℚ) (st : ℚ × ℚ) (now : ℚ) :
    (ℚ × ℚ) × Bool :=
  let elapsed := now - st.2
  let tokens := min rate (st.1 + elapsed * (rate / window))
  if tokens ≥ 1 then ((tokens - 1, now), true) else ((tokens, now), false)

/-- Run the limiter over a sequence of frame arrival times, collecting the
accept/reject verdicts. -/
def RateLimiter.process (rate window : ℚ) (st : ℚ × ℚ) :
    List ℚ → (ℚ × ℚ) × List Bool
  | [] => (st, [])
  | t :: ts =>
      let r1 := RateLimiter.is_allowed rate window st t
      let r2 := RateLimiter.process rate window r1.1 ts
      (r2.1, r1.2 :: r2.2)

/-- Number of accepted frames among the verdicts. -/
def acceptedCount (flags : List Bool) : ℕ := (flags.filter id).length

theorem acceptedCount_append (a b : List Bool) :
    acceptedCount (a ++ b) = acceptedCount a + acceptedCount b := by
  simp [acceptedCount, List.filter_append]

theorem acceptedCount_replicate_true (k : ℕ) :
    acceptedCount (List.replicate k true) = k := by
  induction k with
  | zero => rfl
  | succ n ih =>
      simp only [List.replicate_succ, acceptedCount, List.filter_cons, id] at ih ⊢
      simp [ih]

theorem RateLimiter.process_append (rate window : ℚ) (l1 l2 : List ℚ) :
    ∀ st : ℚ × ℚ,
      RateLimiter.process rate window st (l1 ++ l2) =
        ((RateLimiter.process rate window
            (RateLimiter.process rate window st l1).1 l2).1,
          (RateLimiter.process rate window st l1).2 ++
            (RateLimiter.process rate window
              (RateLimiter.process rate window st l1).1 l2).2) := by
  induction l1 with
  | nil => intro st; rfl
  | cons t ts ih =>
      intro st
      simp only [List.cons_append, RateLimiter.process, List.append_eq]
      rw [ih]

/-- A burst of `k` frames at one instant from a full-enough bucket is fully
accepted, consuming `k` tokens. -/
theorem RateLimiter.process_replicate_const (rate window t : ℚ) :
    ∀ (k : ℕ) (tokens : ℚ), tokens ≤ rate → (k : ℚ) ≤ tokens →
      RateLimiter.process rate window (tokens, t) (List.replicate k t) =
        ((tokens - k, t), List.replicate k true) := by
  intro k
  induction k with
  | zero =>
      intro tokens _ _
      simp [RateLimiter.process]
  | succ n ih =>
      intro tokens hle hk
      have h1 : (1 : ℚ) ≤ tokens := by
        have : ((n : ℚ) + 1) ≤ tokens := by push_cast at hk ⊢; linarith
        have hn : (0 : ℚ) ≤ (n : ℚ) := Nat.cast_nonneg n
        linarith
      have hmin : min rate (tokens + (t - t) * (rate / window)) = tokens := by
        rw [sub_self, zero_mul, add_zero]
        exact min_eq_right hle
      rw [List.replicate_succ, RateLimiter.process]
      simp only [RateLimiter.is_allowed, hmin]
      rw [if_pos h1]
      have ihres := ih (tokens - 1) (by linarith) (by push_cast at hk ⊢; linarith)
      rw [ihres]
      have harith : tokens - 1 - (n : ℚ) = tokens - ((n + 1 : ℕ) : ℚ) := by
        push_cast; ring
      simp only [List.replicate_succ]
      rw [harith]

/-- C9 counterexample arrivals: 100 frames at time 0, then two frames at
time 1/50 — all inside a window shorter than one second. -/
def burstArrivals : List ℚ := List.replicate 100 0 ++ [1/50, 1/50]

/-- C9 counterexample: with the default configuration (`rate = 100`,
`window = 1`) and a fresh channel, the limiter accepts 102 of the
`burstArrivals` frames although all of them arrive within a window of less
than one second — more than the claimed bound `rate + 1 = 101`. -/
theorem rate_limit_rate_plus_one_counterexample :
    acceptedCount (RateLimiter.process 100 1 (100, 0) burstArrivals).2 = 102 ∧
    (∀ t ∈ burstArrivals, 0 ≤ t ∧ t ≤ 1/50) ∧
    (1/50 : ℚ) - 0 < 1 ∧
    102 > 100 + 1 := by
  refine ⟨?_, ?_, by norm_num, by norm_num⟩
  · rw [burstArrivals, RateLimiter.process_append]
    rw [RateLimiter.process_replicate_const 100 1 0 100 100 (le_refl _) (by norm_num)]
    have htail : RateLimiter.process 100 1 ((100 : ℚ) - (100 : ℕ), 0) [1/50, 1/50] =
        ((0, 1/50), [true, true]) := by
      norm_num [RateLimiter.process, RateLimiter.is_allowed, min_def]
    rw [htail]
    rw [acceptedCount_append, acceptedCount_replicate_true]
    rfl
  · intro t ht
    rw [burstArrivals] at ht
    rcases List.mem_append.mp ht with hrep | htwo
    · rw [List.eq_of_mem_replicate hrep]
      norm_num
    · rcases List.mem_cons.mp htwo with h1 | h2
      · rw [h1]; norm_num
      · rcases List.mem_cons.mp h2 with h1 | h2
        · rw [h1]; norm_num
        · simp at h2

/-- The potential bound behind the amended window claim: starting from a
nonneg token count with `last_update` no later than the (sorted) arrivals,
at most `tokens + (tend - last) * rate` of the arrivals up to `tend` are
accepted (`window = 1` as the server configures it). -/
theorem rate_window_bound_aux :
    ∀ (ts : List ℚ) (st : ℚ × ℚ) (tend rate : ℚ),
      0 ≤ rate → List.Chain' (· ≤ ·) (st.2 :: ts) → (∀ t ∈ ts, t ≤ tend) →
      0 ≤ st.1 → st.2 ≤ tend →
      (acceptedCount (RateLimiter.process rate 1 st ts).2 : ℚ) ≤
        st.1 + (tend - st.2) * rate := by
  intro ts
  induction ts with
  | nil =>
      intro st tend rate hrate _ _ htok hlast
      simp only [RateLimiter.process, acceptedCount, List.filter_nil,
        List.length_nil, Nat.cast_zero]
      have : 0 ≤ (tend - st.2) * rate := mul_nonneg (by linarith) hrate
      linarith
  | cons t rest ih =>
      intro st tend rate hrate hchain hbound htok hlast
      have hst2t : st.2 ≤ t := (List.chain'_cons.mp hchain).1
      have hchain2 : List.Chain' (· ≤ ·) (t :: rest) := (List.chain'_cons.mp hchain).2
      have httend : t ≤ tend := hbound t (by simp)
      have hbound2 : ∀ x ∈ rest, x ≤ tend := fun x hx => hbound x (by simp [hx])
      rw [RateLimiter.process]
      simp only [RateLimiter.is_allowed, div_one]
      set tokens2 : ℚ := min rate (st.1 + (t - st.2) * rate) with htokens2
      have htokens2_le : tokens2 ≤ st.1 + (t - st.2) * rate := min_le_right _ _
      have htokens2_nonneg : 0 ≤ tokens2 := by
        rw [htokens2]
        refine le_min hrate ?_
        have : 0 ≤ (t - st.2) * rate := mul_nonneg (by linarith) hrate
        linarith
      by_cases hacc : tokens2 ≥ 1
      · rw [if_pos hacc]
        have hrec := ih (tokens2 - 1, t) tend rate hrate hchain2 hbound2
          (by simp; linarith) httend
        simp only at hrec
        simp only [acceptedCount, List.filter_cons] at hrec ⊢
        simp only [id_eq, if_pos rfl]
        push_cast
        have hstep : (tokens2 - 1) + (tend - t) * rate ≤
            st.1 + (tend - st.2) * rate - 1 := by nlinarith
        simp only [List.length_cons]
        push_cast
        linarith [hrec]
      · rw [if_neg hacc]
        have hrec := ih (tokens2, t) tend rate hrate hchain2 hbound2
          (by simpa using htokens2_nonneg) httend
        simp only at hrec
        simp only [acceptedCount, List.filter_cons] at hrec ⊢
        simp only [id_eq, Bool.false_eq_true, if_false]
        have hstep : tokens2 + (tend - t) * rate ≤
            st.1 + (tend - st.2) * rate := by nlinarith
        linarith [hrec]

/-- C9 (amended): (1) one `is_allowed` call keeps the channel's token count
within `[0, rate]` and stamps `last_update := now` (given nondecreasing
clock readings and positive configuration); (2) with the server's
configuration (`window = 1`), across any sequence of frame arrivals lying
in a closed 1-second window `[T, T+1]`, a channel whose state has
nonnegative tokens and a `last_update` preceding the arrivals has at most
`2 * rate` frames accepted — the capacity burst plus the refill over the
window, not `rate + 1`. -/
theorem rate_limit_two_rate_window_bound :
    (∀ (rate window : ℚ) (st : ℚ × ℚ) (now : ℚ),
      0 ≤ st.1 → 0 ≤ rate → 0 < window → st.2 ≤ now →
      0 ≤ (RateLimiter.is_allowed rate window st now).1.1 ∧
      (RateLimiter.is_allowed rate window st now).1.1 ≤ rate ∧
      (RateLimiter.is_allowed rate window st now).1.2 = now) ∧
    (∀ (rate T : ℚ) (st : ℚ × ℚ) (ts : List ℚ),
      0 ≤ rate → 0 ≤ st.1 →
      List.Chain' (· ≤ ·) (st.2 :: ts) →
      (∀ t ∈ ts, T ≤ t ∧ t ≤ T + 1) →
      (acceptedCount (RateLimiter.process rate 1 st ts).2 : ℚ) ≤ 2 * rate) := by
  constructor
  · intro rate window st now htok hrate hwin hlast
    simp only [RateLimiter.is_allowed]
    set tokens2 : ℚ := min rate (st.1 + (now - st.2) * (rate / window)) with htokens2
    have hle : tokens2 ≤ rate := min_le_left _ _
    have hnonneg : 0 ≤ tokens2 := by
      rw [htokens2]
      refine le_min hrate ?_
      have : 0 ≤ (now - st.2) * (rate / window) :=
        mul_nonneg (by linarith) (div_nonneg hrate (le_of_lt hwin))
      linarith
    by_cases hacc : tokens2 ≥ 1
    · rw [if_pos hacc]
      exact ⟨by simp; linarith, by simp; linarith, rfl⟩
    · rw [if_neg hacc]
      exact ⟨by simpa using hnonneg, by simpa using hle, rfl⟩
  · intro rate T st ts hrate htok hchain hwin
    cases ts with
    | nil =>
        simp only [RateLimiter.process, acceptedCount, List.filter_nil,
          List.length_nil, Nat.cast_zero]
        linarith
    | cons t1 rest =>
        have hst2t : st.2 ≤ t1 := (List.chain'_cons.mp hchain).1
        have hchain2 : List.Chain' (· ≤ ·) (t1 :: rest) := (List.chain'_cons.mp hchain).2
        have ht1 : T ≤ t1 ∧ t1 ≤ T + 1 := hwin t1 (by simp)
        have hrest : ∀ x ∈ rest, x ≤ T + 1 := fun x hx => (hwin x (by simp [hx])).2
        rw [RateLimiter.process]
        simp only [RateLimiter.is_allowed, div_one]
        set tokens2 : ℚ := min rate (st.1 + (t1 - st.2) * rate) with htokens2
        have hcap : tokens2 ≤ rate := min_le_left _ _
        have hnonneg : 0 ≤ tokens2 := by
          rw [htokens2]
          refine le_min hrate ?_
          have : 0 ≤ (t1 - st.2) * rate := mul_nonneg (by linarith) hrate
          linarith
        have hrefill : (T + 1 - t1) * rate ≤ rate := by nlinarith [ht1.1]
        by_cases hacc : tokens2 ≥ 1
        · rw [if_pos hacc]
          have hrec := rate_window_bound_aux rest (tokens2 - 1, t1) (T + 1) rate
            hrate hchain2 hrest (by simp; linarith) ht1.2
          simp only at hrec
          simp only [acceptedCount, List.filter_cons, id_eq, eq_self_iff_true,
            if_true] at hrec ⊢
          rw [List.length_cons]
          push_cast
          linarith [hrec]
        · rw [if_neg hacc]
          have hrec := rate_window_bound_aux rest (tokens2, t1) (T + 1) rate
            hrate hchain2 hrest (by simpa using hnonneg) ht1.2
          simp only at hrec
          simp only [acceptedCount, List.filter_cons, id_eq,
            Bool.false_eq_true, if_false] at hrec ⊢
          linarith [hrec]

/-- Witness for amended C9 at `rate = 2`: two frames at times 0 and 1/2
inside the window `[0, 1]`, from a fresh full bucket; the bound gives at
most 4 accepted, and a single call keeps the invariant. -/
theorem rate_limit_two_rate_window_bound_witness :
    List.Chain' (· ≤ ·) (((2 : ℚ), (0 : ℚ)).2 :: [0, 1/2]) ∧
    (∀ t ∈ [(0 : ℚ), 1/2], (0 : ℚ) ≤ t ∧ t ≤ 0 + 1) ∧
    (acceptedCount (RateLimiter.process 2 1 (2, 0) [0, 1/2]).2 : ℚ) ≤ 2 * 2 ∧
    (0 ≤ (RateLimiter.is_allowed 2 1 (2, 0) 0).1.1 ∧
      (RateLimiter.is_allowed 2 1 (2, 0) 0).1.1 ≤ 2 ∧
      (RateLimiter.is_allowed 2 1 (2, 0) 0).1.2 = 0) := by
  have hchain : List.Chain' (· ≤ ·) (((2 : ℚ), (0 : ℚ)).2 :: [(0 : ℚ), 1/2]) := by
    norm_num [List.chain'_cons]
  have hwin : ∀ t ∈ [(0 : ℚ), 1/2], (0 : ℚ) ≤ t ∧ t ≤ 0 + 1 := by
    intro t ht
    rcases List.mem_cons.mp ht with h1 | h2
    · rw [h1]; norm_num
    · rcases List.mem_cons.mp h2 with h1 | h1
      · rw [h1]; norm_num
      · simp at h1
  refine ⟨hchain, hwin, ?_, ?_⟩
  · exact rate_limit_two_rate_window_bound.2 2 0 (2, 0) [0, 1/2]
      (by norm_num) (by norm_num) hchain hwin
  · exact rate_limit_two_rate_window_bound.1 2 1 (2, 0) 0
      (by norm_num) (by norm_num) (by norm_num) (by norm_num)

/-- A positional argument of the call `room.state.set(...)` in
`CollabkitServer._handle_state_update`. -/
inductive SetCallArg where
  | pathArg (p : List String)
  | valueArg (v : SVal)
  | originArg (u : String)

/--
The method `LWWMap.set` (`crdt/map.py`), called with a Python positional
argument list.  Its signature is `def set(self, path, value)`, so only a
two-element argument list binds; any other arity raises `TypeError` before
the body runs.  The body creates a fresh `set` operation (`opId` and `now`
stand for the generated uuid and `time.time()`) with the map's own node id
as origin, applies it, and returns it.
-/
def LWWMap.set_method (m : LWWMapState) (opId : String) (now : ℚ)
    (args : List SetCallArg) : Except String (LWWMapState × Operation SVal) :=
  match args with
  | [.pathArg p, .valueArg v] =>
      let op : Operation SVal := ⟨opId, now, m.node_id, p, "set", v⟩
      match LWWMap.apply m op with
      | .ok (m2, _) => .ok (m2, op)
      | .error e => .error e
  | _ => .error "TypeError"

/-- Outcome of `CollabkitServer._handle_state_update` when it returns
normally (an uncaught exception is the `Except.error` case instead). -/
inductive StateUpdateOutcome where
  | errNotAuthenticated
  | errPermissionDenied
  | errRoomNotFound
  | applied (newRoomState : LWWMapState) (broadcastOp : Operation SVal)

/--
`CollabkitServer._handle_state_update`: resolve the bound user, check write
permission, look up the room, split the dotted path, then execute
`room.state.set(path, message.value, user_id)` — a call that passes three
positional arguments to `LWWMap.set`.  On success it would broadcast the
returned operation to the room's other members.
-/
def CollabkitServer.handle_state_update
    (rooms : List (String × LWWMapState)) (boundUser : Option String)
    (writeAllowed : Bool) (roomId : String) (path : Option String) (value : SVal)
    (opId : String) (now : ℚ) : Except String StateUpdateOutcome :=
  match boundUser with
  | none => .ok .errNotAuthenticated
  | some userId =>
      if !writeAllowed then .ok .errPermissionDenied
      else match alistGet rooms roomId with
        | none => .ok .errRoomNotFound
        | some room =>
            let p : List String :=
              match path with
              | some s => if s = "" then [] else splitDot s
              | none => []
            match LWWMap.set_method room opId now
                [.pathArg p, .valueArg value, .originArg userId] with
            | .ok (m2, op) => .ok (.applied m2 op)
            | .error e => .error e

/-- C7: evaluating the code at the failing input.  For a bound user with
write permission and an existing room, `_handle_state_update` raises
`TypeError`: `room.state.set(path, message.value, user_id)` passes three
positional arguments while `LWWMap.set` accepts `(self, path, value)` only,
so no `set` is applied and nothing is broadcast — the same call with the
two supported arguments would have succeeded.  (The uncaught exception is
answered by the connection loop's generic `INTERNAL_ERROR` handler.) -/
theorem state_update_raises_type_error :
    CollabkitServer.handle_state_update
      [("room1", LWWMap.init "server-room1")] (some "u1") true "room1"
      (some "a") (.prim (.vint 1)) "op1" 3 = .error "TypeError" ∧
    LWWMap.set_method (LWWMap.init "server-room1") "op1" 3
      [.pathArg ["a"], .valueArg (.prim (.vint 1))] =
      .ok (⟨"server-room1", [(["a"], (.vint 1, 3, "server-room1"))], [],
            [⟨"op1", 3, "server-room1", ["a"], "set", .prim (.vint 1)⟩],
            [("server-room1", 3)]⟩,
          ⟨"op1", 3, "server-room1", ["a"], "set", .prim (.vint 1)⟩) :=
  ⟨rfl, rfl⟩

/-- `RegisteredFunction` from `room.py`; the handler itself is opaque and
modelled by an identifier. -/
structure RegisteredFunction where
  name : String
  func : String
  requires_auth : Bool
  required_permissions : List String
  deriving DecidableEq, Repr

/-- The `Room` fields touched by `RoomManager.create_room` (`room.py`):
CRDT state, registered functions, metadata. -/
structure RoomModel where
  room_id : String
  node_id : String
  state : LWWMapState
  functions : List (String × RegisteredFunction)
  created_at : ℚ
  metadata : List (String × Val)

/-- `LWWMap._init_from_value`: seed entries from a nested dictionary, one
scalar per leaf path, with timestamp `0.0` and the map's own node id. -/
def LWWMap.init_from_value (node_id : String) :
    List String → SDict → List (List String × (Val × ℚ × String)) →
      List (List String × (Val × ℚ × String))
  | _, .nil, es => es
  | path, .cons k (.prim v) tl, es =>
      LWWMap.init_from_value node_id path tl
        (alistSet es (path ++ [k]) (v, 0, node_id))
  | path, .cons k (.dict xs) tl, es =>
      LWWMap.init_from_value node_id path tl
        (LWWMap.init_from_value node_id (path ++ [k]) xs es)
termination_by _ d _ => sizeOf d
decreasing_by all_goals (simp_wf; try omega)

/-- `LWWMap(node_id, initial_value)`. -/
def LWWMap.init_with (node_id : String) (initial : Option SDict) : LWWMapState :=
  ⟨node_id,
    match initial with
    | some d => LWWMap.init_from_value node_id [] d []
    | none => [],
    [], [], []⟩

/-- `Room(room_id, initial_state=...)`: node id defaults to
`"server-" + room_id`, metadata starts empty. -/
def Room.new (room_id : String) (initial_state : Option SDict) : RoomModel :=
  ⟨room_id, "server-" ++ room_id,
    LWWMap.init_with ("server-" ++ room_id) initial_state, [], 0, []⟩

/-- `Room.register_function`. -/
def Room.register_function (r : RoomModel) (name : String) (func : String)
    (requiresAuth : Bool) (requiredPermissions : List String) : RoomModel :=
  { r with functions :=
      alistSet r.functions name ⟨name, func, requiresAuth, requiredPermissions⟩ }

/-- The `RoomManager` fields touched by `create_room`. -/
structure RoomManagerState where
  rooms : List (String × RoomModel)
  global_functions : List (String × RegisteredFunction)

/--
`RoomManager.create_room` (`room.py`): `room_id = room_id or str(uuid.uuid4())`
replaces a falsy room id — `None` or the empty string — by a generated uuid
(`freshId`); an existing room is returned unchanged, otherwise the room is
built, the global functions are copied into it, the supplied metadata is
applied, the room is stored and the creation callbacks run.  The returned
`Bool` is whether the `on_room_created` callbacks were invoked.
-/
def RoomManager.create_room (mgr : RoomManagerState) (room_id : Option String)
    (freshId : String) (initial_state : Option SDict)
    (metadata : Option (List (String × Val))) :
    RoomManagerState × RoomModel × Bool :=
  let rid := match room_id with
    | some s => if s = "" then freshId else s
    | none => freshId
  match alistGet mgr.rooms rid with
  | some room => (mgr, room, false)
  | none =>
      let room0 := Room.new rid initial_state
      let room1 := mgr.global_functions.foldl
        (fun r nf =>
          Room.register_function r nf.1 nf.2.func nf.2.requires_auth
            nf.2.required_permissions)
        room0
      let room2 :=
        match metadata with
        | some md => { room1 with
            metadata := md.foldl (fun acc kv => alistSet acc kv.1 kv.2) room1.metadata }
        | none => room1
      ({ mgr with rooms := alistSet mgr.rooms rid room2 }, room2, true)

/-- C10: calling `create_room` with a (non-falsy) id that already exists
returns the stored room object and changes nothing: the manager state is
returned as-is, the supplied `initial_state` and `metadata` are ignored,
and the creation callbacks are not invoked.  The nonemptiness hypothesis
matches the source: an empty id is falsy and is replaced by a fresh uuid
before the lookup — and since `create_room` itself only ever stores
uuid-defaulted or non-falsy ids, every id existing in the manager is
nonempty. -/
theorem create_room_existing_is_noop
    (mgr : RoomManagerState) (rid freshId : String) (room : RoomModel)
    (initial_state : Option SDict) (metadata : Option (List (String × Val)))
    (hne : rid ≠ "") (h : alistGet mgr.rooms rid = some room) :
    RoomManager.create_room mgr (some rid) freshId initial_state metadata =
      (mgr, room, false) := by
  unfold RoomManager.create_room
  simp [hne, h]

/-- Concrete manager for the C10 witness: one stored room `"r"`. -/
def managerWithRoom : RoomManagerState :=
  ⟨[("r", Room.new "r" none)], []⟩

/-- Witness for C10: re-creating `"r"` with a different initial state and
metadata returns the stored room, the unchanged manager, and no callback. -/
theorem create_room_existing_is_noop_witness :
    ("r" : String) ≠ "" ∧
    alistGet managerWithRoom.rooms "r" = some (Room.new "r" none) ∧
    RoomManager.create_room managerWithRoom (some "r") "fresh-uuid"
      (some (.cons "x" (.prim (.vint 9)) .nil)) (some [("m", .vint 1)]) =
      (managerWithRoom, Room.new "r" none, false) :=
  ⟨by decide, rfl,
    create_room_existing_is_noop managerWithRoom "r" "fresh-uuid"
      (Room.new "r" none) (some (.cons "x" (.prim (.vint 9)) .nil))
      (some [("m", .vint 1)]) (by decide) rfl⟩
